import Mathlib

/-!
A verification development for the ValueNumStore ("VNS") of the JIT value
numbering subsystem (src/src/coreclr/jit/valuenum.h).  The header in src/
declares the store and contains the inline parts (reserved value numbers,
the paired liberal/conservative constructors, chunk arithmetic, the
commutativity attribute query); the out-of-line bodies (hash-consing
constructors, the map selection engine, the exception-set algebra) are not
part of src/, so those operations are modelled from the specification, as
marked on each definition.

Two embeddings are used:

* a stateful store model (`ValueNumStore`): value numbers are natural
  numbers, dynamically allocated ones index into an append-only list of
  definitions, mirroring the chunk arena + hash-consing tables;
* a term model (`VNE`) for the map selection engine: by the hash-consing
  invariant ("any two calls with structurally equal inputs return the same
  VN"), map VNs are in bijection with their defining terms, so selection
  is modelled as a function on defining terms.
-/

/-- Semantic type tag, an abridged `var_types`.  `tMem`/`tHeap` are the
placeholder types of precise maps (TYP_UNDEF/TYP_UNKNOWN in the header). -/
inductive VarType where
  | tInt
  | tLong
  | tFloat
  | tRef
  | tByref
  | tMem
  | tHeap
deriving DecidableEq, Repr

/-- VN function symbols, an abridged `VNFunc`: a few arithmetic mirrors, the
overflow-checked add, the exception-set constructors, and an `Other` family
standing for all remaining symbols. -/
inductive VNFunc where
  | ADD
  | SUB
  | MUL
  | DIV
  | ADD_OVF
  | ExcSetConsFn
  | ValWithExcFn
  | DivByZeroExcFn
  | ArithExcFn
  | OvfExcFn
  | Other (n : Nat)
deriving DecidableEq, Repr

/-- Mirror of `ValueNumStore::VNFuncIsCommutative` (valuenum.h:2398): reads the
commutative attribute bit; in the attribute table `GT_ADD`, `GT_MUL` and
`VNF_ADD_OVF` are commutative, the other modelled symbols are not. -/
def VNFuncIsCommutative (f : VNFunc) : Bool :=
  match f with
  | .ADD => true
  | .MUL => true
  | .ADD_OVF => true
  | _ => false

/-- What a dynamically allocated value number is defined as: a constant chunk
entry, a function application chunk entry, or a unique opaque VN
(`VNForExpr`-style, never hash-consed). -/
inductive VNDef where
  | intCns (v : Int)
  | funcApp (ty : VarType) (f : VNFunc) (args : List Nat)
  | uniqueOpaque (ty : VarType) (tag : Nat)
deriving DecidableEq, Repr

/-- Number of reserved special ref constants (valuenum.h:2124, enum
`SpecialRefConsts`). -/
def SRC_NumSpecialRefConsts : Nat := 3

/-- Chunks hold 64 value numbers (valuenum.h:1568, `LogChunkSize = 6`). -/
def LogChunkSize : Nat := 6

/-- `ChunkSize = 1 << LogChunkSize` (valuenum.h:1569). -/
def ChunkSize : Nat := 1 <<< LogChunkSize

/-- Mirror of `ValueNumStore::GetChunkNum` (valuenum.h:1578): the chunk that
holds a VN is `vn >> LogChunkSize`. -/
def GetChunkNum (vn : Nat) : Nat := vn >>> LogChunkSize

/-- The universe of value numbers of one compilation.  Chunk 0 is reserved for
the special ref constants (valuenum.h:2123); dynamically allocated VNs start at
`ChunkSize` and index into the append-only `defs` list. -/
structure ValueNumStore where
  defs : List VNDef
deriving DecidableEq, Repr

/-- The VN the next allocation will receive. -/
def ValueNumStore.nextVN (s : ValueNumStore) : Nat := ChunkSize + s.defs.length

/-- The definition recorded for a dynamically allocated VN. -/
def ValueNumStore.defAt (s : ValueNumStore) (vn : Nat) : Option VNDef :=
  if vn < ChunkSize then none else s.defs[vn - ChunkSize]?

/-- A VN previously returned by the store: one of the reserved special ref
constants, or a dynamically allocated VN. -/
def ValueNumStore.validVN (s : ValueNumStore) (vn : Nat) : Prop :=
  vn < SRC_NumSpecialRefConsts ∨ (ChunkSize ≤ vn ∧ vn < s.nextVN)

/-- `s'` is `s` after zero or more further allocations (VNs are never deleted,
mutated nor renumbered). -/
def ValueNumStore.ExtendedBy (s s' : ValueNumStore) : Prop :=
  ∃ t, s'.defs = s.defs ++ t

/-- Index of the first occurrence of a definition in the `defs` list; the
lookup half of the hash-consing tables. -/
def lookupIdx (d : VNDef) : List VNDef → Option Nat
  | [] => none
  | e :: es => if e = d then some 0 else (lookupIdx d es).map (· + 1)

/-- Modelled from the spec: the lookup-or-insert discipline of the
hash-consing tables ("Lookup-or-insert is the sole construction path",
spec §4.1); the bodies of the `VNFor...` constructors are not under src/. -/
def hashCons (s : ValueNumStore) (d : VNDef) : Nat × ValueNumStore :=
  match lookupIdx d s.defs with
  | some i => (ChunkSize + i, s)
  | none => (ChunkSize + s.defs.length, ⟨s.defs ++ [d]⟩)

/-- Modelled from the spec: `VNForIntCon` (declared valuenum.h:460), a
hash-consed int32 constant. -/
def VNForIntCon (s : ValueNumStore) (v : Int) : Nat × ValueNumStore :=
  hashCons s (.intCns v)

/-- Modelled from the spec: `VNForExpr` (declared valuenum.h:975) allocates a
fresh, unique, opaque VN of the given type; it is never hash-consed and never
matches any other term. -/
def VNForExpr (s : ValueNumStore) (ty : VarType) : Nat × ValueNumStore :=
  (s.nextVN, ⟨s.defs ++ [.uniqueOpaque ty s.defs.length]⟩)

section FoldModel

/-- Wrap an integer to the int32 range (two's-complement semantics of the
target, spec §4.3 item 1). -/
def wrap32 (n : Int) : Int := (n + 2 ^ 31) % 2 ^ 32 - 2 ^ 31

/-- Outcome of attempting to constant-fold a binary operation. -/
inductive FoldRes where
  | noFold
  | val (v : Int)
  | exc (e : VNFunc)
deriving DecidableEq, Repr

/-- Modelled from the spec: constant folding of the modelled binary operations
on int32 operands (spec §4.3): two's-complement wrap for the plain operations;
division by zero raises `DivByZeroExc`, `INT32_MIN / -1` raises `ArithExc`
(cf. `IsOverflowIntDiv`, valuenum.h:364), and an out-of-range checked add
raises `OvfExc`.  Symbols outside the folding set do not fold. -/
def foldOutcome (f : VNFunc) (x y : Int) : FoldRes :=
  match f with
  | .ADD => .val (wrap32 (x + y))
  | .SUB => .val (wrap32 (x - y))
  | .MUL => .val (wrap32 (x * y))
  | .DIV =>
    if y = 0 then .exc .DivByZeroExcFn
    else if x = -(2 ^ 31) ∧ y = -1 then .exc .ArithExcFn
    else .val (wrap32 (Int.tdiv x y))
  | .ADD_OVF =>
    if -(2 ^ 31) ≤ x + y ∧ x + y < 2 ^ 31 then .val (x + y) else .exc .OvfExcFn
  | _ => .noFold

end FoldModel

/-- The int32 constant payload of a VN, if it has one. -/
def getIntConst (s : ValueNumStore) (vn : Nat) : Option Int :=
  match s.defAt vn with
  | some (.intCns v) => some v
  | _ => none

/-- Commutative operations canonicalize their argument order by ascending VN
(spec §4.3; the swap happens before folding and before the table lookup). -/
def canonArgs (f : VNFunc) (a b : Nat) : Nat × Nat :=
  if VNFuncIsCommutative f ∧ b < a then (b, a) else (a, b)

/-- The value a binary application folds to, if any: both arguments must be
int32 constants of the requested type and the fold must yield a value.  A
fold that would raise an exception yields nothing here (cf.
`VNEvalShouldFold`, valuenum.h:342, whose contract excludes such folds; the
exception path of the spec is modelled by `VNForFuncWithExc`). -/
def foldVal (s : ValueNumStore) (ty : VarType) (f : VNFunc) (a b : Nat) :
    Option Int :=
  if ty = .tInt then
    match getIntConst s a, getIntConst s b with
    | some x, some y =>
      match foldOutcome f x y with
      | .val v => some v
      | _ => none
    | _, _ => none
  else none

/-- The exception the fold of two int32 constant operands would raise, if
any; used by the exception path `VNForFuncWithExc`. -/
def foldExcOf (s : ValueNumStore) (f : VNFunc) (a b : Nat) : Option VNFunc :=
  match getIntConst s a, getIntConst s b with
  | some x, some y =>
    match foldOutcome f x y with
    | .exc e => some e
    | _ => none
  | _, _ => none

/-- The post-canonicalization body of the binary `VNForFunc`: fold to a
constant VN when possible, otherwise look up or insert the application in the
arity-2 hash-consing table. -/
def VNForFuncCanonical (s : ValueNumStore) (ty : VarType) (f : VNFunc) (a b : Nat) :
    Nat × ValueNumStore :=
  match foldVal s ty f a b with
  | some v => VNForIntCon s v
  | none => hashCons s (.funcApp ty f [a, b])

/-- Modelled from the spec: the binary `VNForFunc` (declared valuenum.h:828,
body not under src/): canonicalize commutative argument order, attempt
constant folding, otherwise look up or insert in the arity-2 hash-consing
table (`GetVNFunc2Map`, valuenum.h:2064). -/
def VNForFunc2 (s : ValueNumStore) (ty : VarType) (f : VNFunc) (a b : Nat) :
    Nat × ValueNumStore :=
  let p := canonArgs f a b
  VNForFuncCanonical s ty f p.1 p.2

/-- Modelled from the spec: the n-ary plain hash-consing constructor
(the arity-0/1/3/4 `VNForFunc` overloads, valuenum.h:825-833, share this
lookup-or-insert path). -/
def VNForFuncN (s : ValueNumStore) (ty : VarType) (f : VNFunc) (args : List Nat) :
    Nat × ValueNumStore :=
  hashCons s (.funcApp ty f args)

/-- Modelled from the spec: `VNForFuncNoFolding` (declared valuenum.h:836,
"Skip all folding checks"). -/
def VNForFuncNoFolding2 (s : ValueNumStore) (ty : VarType) (f : VNFunc) (a b : Nat) :
    Nat × ValueNumStore :=
  VNForFuncN s ty f [a, b]

/-- Modelled from the spec: `VNExcSetSingleton` (declared valuenum.h:715):
`Singleton(e) = ExcSetCons(e, EmptyExcSet)` (spec §4.2), where the exception
node itself is the hash-consed arity-0 application of the exception symbol
and `EmptyExcSet` is the reserved VN 2. -/
def VNExcSetSingleton (s : ValueNumStore) (excFn : VNFunc) : Nat × ValueNumStore :=
  let p := hashCons s (.funcApp .tRef excFn [])
  let q := hashCons p.2 (.funcApp .tRef .ExcSetConsFn [p.1, 2])
  q

/-- Modelled from the spec: the exception path of constant folding (spec §4.3
item 4, §7, scenario S5): when folding the constant arguments would raise, no
VN for a value is produced; instead a fresh opaque VN of the operation's
result type is paired, via `ValWithExc`, with the singleton of the
appropriate exception (cf. `VNUniqueWithExc`, valuenum.h:778).  Otherwise
this is the plain binary `VNForFunc`. -/
def VNForFuncWithExc (s : ValueNumStore) (ty : VarType) (f : VNFunc) (a b : Nat) :
    Nat × ValueNumStore :=
  let p := canonArgs f a b
  match foldExcOf s f p.1 p.2 with
  | some e =>
    let xs := VNExcSetSingleton s e
    let u := VNForExpr xs.2 ty
    hashCons u.2 (.funcApp ty .ValWithExcFn [u.1, xs.1])
  | none => VNForFunc2 s ty f a b

/-- Reserved VN for the null object reference (valuenum.h:652, `SRC_Null` is
the first member of `SpecialRefConsts`). -/
def VNForNull : Nat := 0

/-- Reserved VN for "void" (valuenum.h:659, `SRC_Void`). -/
def VNForVoid : Nat := 1

/-- Reserved VN for the empty exception set (valuenum.h:670,
`SRC_EmptyExcSet`). -/
def VNForEmptyExcSet : Nat := 2

section PairedConstructors

/-- `ValueNumPair` (liberal, conservative), valuenumtype.h / spec §3. -/
structure ValueNumPair where
  liberal : Nat
  conservative : Nat
deriving DecidableEq, Repr

/-- `ValueNumPair::BothEqual`. -/
def ValueNumPair.BothEqual (p : ValueNumPair) : Prop := p.liberal = p.conservative

instance (p : ValueNumPair) : Decidable p.BothEqual := by
  unfold ValueNumPair.BothEqual; infer_instance

/-- The binary `VNPairForFunc` (valuenum.h:906-921): apply the underlying
constructor to the liberal halves; if every argument pair has equal halves,
reuse the liberal result as the conservative result, otherwise apply the
constructor to the conservative halves as well. -/
def VNPairForFunc2 (s : ValueNumStore) (ty : VarType) (f : VNFunc)
    (p q : ValueNumPair) : ValueNumPair × ValueNumStore :=
  let lib := VNForFunc2 s ty f p.liberal q.liberal
  if p.BothEqual ∧ q.BothEqual then (⟨lib.1, lib.1⟩, lib.2)
  else
    let con := VNForFunc2 lib.2 ty f p.conservative q.conservative
    (⟨lib.1, con.1⟩, con.2)

/-- `VNPairForFuncNoFolding` (valuenum.h:922-937), same short-circuit
structure over `VNForFuncNoFolding`. -/
def VNPairForFuncNoFolding2 (s : ValueNumStore) (ty : VarType) (f : VNFunc)
    (p q : ValueNumPair) : ValueNumPair × ValueNumStore :=
  let lib := VNForFuncNoFolding2 s ty f p.liberal q.liberal
  if p.BothEqual ∧ q.BothEqual then (⟨lib.1, lib.1⟩, lib.2)
  else
    let con := VNForFuncNoFolding2 lib.2 ty f p.conservative q.conservative
    (⟨lib.1, con.1⟩, con.2)

/-- The `VNPairForFunc` overloads of every arity (valuenum.h:885-973),
presented uniformly over an argument list: the arity-k overload is the
instance where `ps` has length k. -/
def VNPairForFuncN (s : ValueNumStore) (ty : VarType) (f : VNFunc)
    (ps : List ValueNumPair) : ValueNumPair × ValueNumStore :=
  let lib := VNForFuncN s ty f (ps.map (·.liberal))
  if ps.all fun p => decide p.BothEqual then (⟨lib.1, lib.1⟩, lib.2)
  else
    let con := VNForFuncN lib.2 ty f (ps.map (·.conservative))
    (⟨lib.1, con.1⟩, con.2)

/-- Specification-side definition for claim C9: the naive paired constructor
that "applies the per-side operation independently to the liberal arguments
and to the conservative arguments", with no short-circuit. -/
def VNPairForFunc2Naive (s : ValueNumStore) (ty : VarType) (f : VNFunc)
    (p q : ValueNumPair) : ValueNumPair × ValueNumStore :=
  let lib := VNForFunc2 s ty f p.liberal q.liberal
  let con := VNForFunc2 lib.2 ty f p.conservative q.conservative
  (⟨lib.1, con.1⟩, con.2)

/-- Specification-side definition for claim C9, no-folding variant. -/
def VNPairForFuncNoFolding2Naive (s : ValueNumStore) (ty : VarType) (f : VNFunc)
    (p q : ValueNumPair) : ValueNumPair × ValueNumStore :=
  let lib := VNForFuncNoFolding2 s ty f p.liberal q.liberal
  let con := VNForFuncNoFolding2 lib.2 ty f p.conservative q.conservative
  (⟨lib.1, con.1⟩, con.2)

/-- Specification-side definition for claim C9, n-ary variant. -/
def VNPairForFuncNNaive (s : ValueNumStore) (ty : VarType) (f : VNFunc)
    (ps : List ValueNumPair) : ValueNumPair × ValueNumStore :=
  let lib := VNForFuncN s ty f (ps.map (·.liberal))
  let con := VNForFuncN lib.2 ty f (ps.map (·.conservative))
  (⟨lib.1, con.1⟩, con.2)

end PairedConstructors

section ExcSetModel

/-- Mirror of `VNCheckAscending` (declared valuenum.h:720): an item is in
ascending, duplicate-free order relative to the rest of an exception chain if
it is strictly below the chain's head (exception sets are represented here by
the list of their `ExcSetCons` heads; `[]` is `EmptyExcSet`). -/
def VNCheckAscending (item : Nat) (xs : List Nat) : Bool :=
  match xs with
  | [] => true
  | y :: _ => item < y

/-- The exception-set ordering invariant: the chain is strictly ascending by
VN (spec §4.2: `head < headOf(tail)`). -/
def excSetOrdered : List Nat → Bool
  | [] => true
  | x :: xs => VNCheckAscending x xs && excSetOrdered xs

/-- Fuel-indexed sorted merge with deduplication; `excSetMergeFuel` is total
for fuel at or above the combined length. -/
def excSetMergeFuel : Nat → List Nat → List Nat → List Nat
  | 0, xs, ys => xs ++ ys
  | _ + 1, [], ys => ys
  | _ + 1, x :: xs, [] => x :: xs
  | f + 1, x :: xs, y :: ys =>
    if x < y then x :: excSetMergeFuel f xs (y :: ys)
    else if y < x then y :: excSetMergeFuel f (x :: xs) ys
    else x :: excSetMergeFuel f xs ys

/-- Modelled from the spec: `VNExcSetUnion` (declared valuenum.h:725, body not
under src/): the union of two ascending exception sets is their sorted merge
with duplicates collapsed (spec §4.2). -/
def VNExcSetUnion (xs ys : List Nat) : List Nat :=
  excSetMergeFuel (xs.length + ys.length) xs ys

/-- Fuel-indexed ordered intersection. -/
def excSetInterFuel : Nat → List Nat → List Nat → List Nat
  | 0, _, _ => []
  | _ + 1, [], _ => []
  | _ + 1, _ :: _, [] => []
  | f + 1, x :: xs, y :: ys =>
    if x < y then excSetInterFuel f xs (y :: ys)
    else if y < x then excSetInterFuel f (x :: xs) ys
    else x :: excSetInterFuel f xs ys

/-- Modelled from the spec: `VNExcSetIntersection` (declared valuenum.h:732,
body not under src/): the ordered intersection of two ascending exception
sets (spec §4.2). -/
def VNExcSetIntersection (xs ys : List Nat) : List Nat :=
  excSetInterFuel (xs.length + ys.length) xs ys

end ExcSetModel

section SelectEngine

/-- Defining terms of map-related value numbers.  By the hash-consing
invariant, two map VNs are equal exactly when their defining terms are
structurally equal, so the selection engine is modelled on terms:
`cns` is a constant VN, `opq` an opaque VN (an initial map state or a
`VNForExpr` result), and the remaining constructors are the map `VNFunc`s of
valuenum.h:48-69 (`phiDef` holds SSA argument indices, resolved through an
environment, mirroring `VNPhiDef`, valuenum.h:210). -/
inductive VNE where
  | cns (n : Nat)
  | opq (n : Nat)
  | mapStore (m : VNE) (i : VNE) (v : VNE)
  | mapPhysStore (m : VNE) (off sz : Nat) (v : VNE)
  | bitCast (m : VNE) (sz : Nat)
  | phiDef (args : List Nat)
  | mapSelect (m : VNE) (i : VNE)
  | mapPhysSelect (m : VNE) (off sz : Nat)
  | recVN
deriving DecidableEq, Repr

/-- Whether a term is a constant VN (`IsVNConstant` for the term model). -/
def VNE.isConst : VNE → Bool
  | .cns _ => true
  | _ => false

/-- Whether a term is a materialized `MapSelect` application. -/
def VNE.isMapSelectTerm : VNE → Bool
  | .mapSelect _ _ => true
  | _ => false

/-- Mirror of `EncodePhysicalSelector` (declared valuenum.h:876): packs
`(offset, size)` into one number, offset in the high 32 bits, size in the low
32 bits. -/
def EncodePhysicalSelector (offset size : Nat) : Nat :=
  offset * 2 ^ 32 + size % 2 ^ 32

/-- Mirror of `DecodePhysicalSelector` (declared valuenum.h:878): recovers
`(offset, size)` from an encoded selector. -/
def DecodePhysicalSelector (n : Nat) : Nat × Nat :=
  (n / 2 ^ 32, n % 2 ^ 32)

/-- The physical selector carried by a select index, when the index is the
constant VN encoding one. -/
def decodeSelIdx : VNE → Option (Nat × Nat)
  | .cns n => some (DecodePhysicalSelector n)
  | _ => none

/-- Modelled from the spec: two physical selectors `(o1,s1)` and `(o2,s2)` do
not alias iff `o1+s1 ≤ o2 ∨ o2+s2 ≤ o1` (spec §4.4, physical select
algorithm). -/
def physNoAlias (o1 s1 o2 s2 : Nat) : Bool :=
  decide (o1 + s1 ≤ o2) || decide (o2 + s2 ≤ o1)

/-- The term materialized when the selection engine gives up: a fresh
`MapSelect` for precise selections, a fresh `MapPhysicalSelect` for physical
ones (spec §4.4). -/
def giveUpTerm (map i : VNE) (phys : Bool) : VNE :=
  if phys then
    match decodeSelIdx i with
    | some (o, s) => .mapPhysSelect map o s
    | none => .mapSelect map i
  else .mapSelect map i

/-- One step of the selection engine on the map at the head of the work list:
return a value, descend into an underlying map, or reduce a PHI. -/
inductive StepAct where
  | ret (r : VNE)
  | descend (m : VNE)
  | phiArgs (args : List Nat)
deriving DecidableEq, Repr

/-- Modelled from the spec: the per-map dispatch of `VNForMapSelectWork`
(declared valuenum.h:853, body not under src/), following the precise and
physical select algorithms of spec §4.4:

* `MapStore(m', j, v)` selected at `i`: if `j = i` the stored value is
  returned; if `j` and `i` are distinguishable (both constants, hence
  distinct) the store is skipped; otherwise give up;
* `MapPhysicalStore(m', o1, s1, v)` selected at the selector `(o2, s2)`:
  skip the store when the selectors do not alias; if the read is entirely
  contained in the store, return the stored value, bit-cast to the requested
  size when the sizes differ; on partial overlap give up;
* `BitCast` is transparent when the sizes match, otherwise opaque;
* a `PhiDef` already on the recursion stack returns `RecursiveVN`
  (cf. `m_fixedPointMapSels`, valuenum.h:1680, and
  `SelectIsBeingEvaluatedRecursively`, valuenum.h:1689), otherwise its
  arguments are selected;
* anything else gives up. -/
def stepOf (stack : List (VNE × VNE)) (map i : VNE) (phys : Bool) : StepAct :=
  match map with
  | .mapStore m j v =>
    if j = i then .ret v
    else if j.isConst && i.isConst then .descend m
    else .ret (giveUpTerm map i phys)
  | .mapPhysStore m o1 s1 v =>
    match decodeSelIdx i with
    | some (o2, s2) =>
      if physNoAlias o1 s1 o2 s2 then .descend m
      else if o1 ≤ o2 ∧ o2 + s2 ≤ o1 + s1 then
        .ret (if s2 = s1 then v else .bitCast v s2)
      else .ret (giveUpTerm map i phys)
    | none => .ret (giveUpTerm map i phys)
  | .bitCast m sz =>
    match decodeSelIdx i with
    | some (_, s2) => if s2 = sz then .descend m else .ret (giveUpTerm map i phys)
    | none => .ret (giveUpTerm map i phys)
  | .phiDef args =>
    if (map, i) ∈ stack then .ret .recVN else .phiArgs args
  | _ => .ret (giveUpTerm map i phys)

/-- Modelled from the spec: PHI reduction (spec §4.4): results that reduced to
`RecursiveVN` are ignored; if at least one non-recursive result exists and all
non-recursive results agree, that common value is the selection, otherwise a
fresh select term is materialized. -/
def phiCombine (map i : VNE) (phys : Bool) (rs : List VNE) : VNE :=
  match rs.filter fun r => !decide (r = VNE.recVN) with
  | [] => giveUpTerm map i phys
  | w :: ws => if ws.all fun r => decide (r = w) then w else giveUpTerm map i phys

/-- Modelled from the spec: `VNForMapSelectWork` (declared valuenum.h:853,
body not under src/), presented as a worker over a list of pending
selections, all at the same index; the result for `MapStore` skipping is the
result for the underlying map, mirroring the tail call of the
implementation.  The first argument is structural fuel, kept strictly above
the budget by every entry point and (unlike the budget) decremented on every
call; the second argument is the shared select budget: processing any map
costs one budget step and an exhausted budget materializes conservative
select terms (spec §4.4, budget counter).  The environment resolves the SSA
argument indices stored in PHI definitions to their value numbers
(cf. `VNPhiDefToVN`, valuenum.h:583).  Returns the selection results and the
number of budget steps consumed. -/
def VNForMapSelectWork (env : Nat → VNE) :
    Nat → Nat → List (VNE × VNE) → List VNE → VNE → Bool → List VNE × Nat
  | 0, _, _, maps, i, phys => (maps.map fun m => giveUpTerm m i phys, 0)
  | _ + 1, 0, _, maps, i, phys => (maps.map fun m => giveUpTerm m i phys, 0)
  | _ + 1, _ + 1, _, [], _, _ => ([], 0)
  | f + 1, b + 1, stack, map :: rest, i, phys =>
    match stepOf stack map i phys with
    | .ret r =>
      let o := VNForMapSelectWork env f b stack rest i phys
      (r :: o.1, o.2 + 1)
    | .descend m =>
      let o := VNForMapSelectWork env f b stack (m :: rest) i phys
      (o.1, o.2 + 1)
    | .phiArgs args =>
      let oa := VNForMapSelectWork env f b ((map, i) :: stack) (args.map env) i phys
      let orest := VNForMapSelectWork env f (b - oa.2) stack rest i phys
      (phiCombine map i phys oa.1 :: orest.1, oa.2 + orest.2 + 1)

/-- `DEFAULT_MAP_SELECT_BUDGET` (valuenum.h:408): the default number of
`MapSelect` terms that may be considered in one top-level selection. -/
def DEFAULT_MAP_SELECT_BUDGET : Nat := 100

/-- Modelled from the spec: the top-level `VNForMapSelect` (declared
valuenum.h:846): run the worker on the single requested map with a fresh
budget. -/
def VNForMapSelect (env : Nat → VNE) (map i : VNE) : VNE :=
  (VNForMapSelectWork env (DEFAULT_MAP_SELECT_BUDGET + 1) DEFAULT_MAP_SELECT_BUDGET
      [] [map] i false).1.headD (.mapSelect map i)

/-- Modelled from the spec: the top-level `VNForMapPhysicalSelect` (declared
valuenum.h:848): encode the physical selector and run the worker. -/
def VNForMapPhysicalSelect (env : Nat → VNE) (map : VNE) (offset size : Nat) : VNE :=
  (VNForMapSelectWork env (DEFAULT_MAP_SELECT_BUDGET + 1) DEFAULT_MAP_SELECT_BUDGET
      [] [map] (.cns (EncodePhysicalSelector offset size)) true).1.headD
    (.mapPhysSelect map offset size)

/-- A chain of `n` precise stores over an opaque base map, at pairwise
distinct constant indices `1..n` (scenario S4 of the spec). -/
def storeChain : Nat → VNE
  | 0 => .opq 0
  | n + 1 => .mapStore (storeChain n) (.cns (n + 1)) (.cns (1000 + n))

/-- A chain of `n` physical stores over an opaque base map, at pairwise
disjoint selectors `(4k, 4)` for `k = 1..n`. -/
def physStoreChain : Nat → VNE
  | 0 => .opq 1
  | n + 1 => .mapPhysStore (physStoreChain n) (4 * (n + 1)) 4 (.cns n)

end SelectEngine

section StoreLemmas

theorem ValueNumStore.ExtendedBy.refl (s : ValueNumStore) : s.ExtendedBy s :=
  ⟨[], by simp⟩

theorem ValueNumStore.ExtendedBy.trans {s1 s2 s3 : ValueNumStore}
    (h1 : s1.ExtendedBy s2) (h2 : s2.ExtendedBy s3) : s1.ExtendedBy s3 := by
  obtain ⟨t1, ht1⟩ := h1
  obtain ⟨t2, ht2⟩ := h2
  exact ⟨t1 ++ t2, by simp [ht2, ht1]⟩

theorem defAt_mono {s s' : ValueNumStore} {k : Nat} {d : VNDef}
    (hext : s.ExtendedBy s') (h : s.defAt k = some d) : s'.defAt k = some d := by
  obtain ⟨t, ht⟩ := hext
  unfold ValueNumStore.defAt at *
  split at h
  · exact absurd h (by simp)
  · rename_i hk
    rw [if_neg hk, ht]
    have hlt : k - ChunkSize < s.defs.length := by
      by_contra hge
      rw [List.getElem?_eq_none (by omega)] at h
      exact absurd h (by simp)
    rw [List.getElem?_append_left hlt]
    exact h

theorem defAt_some_of_lt {s : ValueNumStore} {k : Nat}
    (h1 : ChunkSize ≤ k) (h2 : k < s.nextVN) : ∃ d, s.defAt k = some d := by
  unfold ValueNumStore.defAt
  rw [if_neg (by omega)]
  have : k - ChunkSize < s.defs.length := by
    unfold ValueNumStore.nextVN at h2; omega
  exact ⟨s.defs[k - ChunkSize], List.getElem?_eq_getElem this⟩

theorem getIntConst_mono_valid {s s' : ValueNumStore} {vn : Nat}
    (hv : s.validVN vn) (hext : s.ExtendedBy s') :
    getIntConst s' vn = getIntConst s vn := by
  rcases hv with hres | ⟨hlo, hhi⟩
  · have hc : vn < ChunkSize := by
      unfold SRC_NumSpecialRefConsts at hres
      simp only [ChunkSize, LogChunkSize]
      omega
    have h1 : s.defAt vn = none := by unfold ValueNumStore.defAt; rw [if_pos hc]
    have h2 : s'.defAt vn = none := by unfold ValueNumStore.defAt; rw [if_pos hc]
    unfold getIntConst
    rw [h1, h2]
  · obtain ⟨d, hd⟩ := defAt_some_of_lt hlo hhi
    unfold getIntConst
    rw [hd, defAt_mono hext hd]

theorem lookupIdx_getElem {d : VNDef} :
    ∀ {l : List VNDef} {i : Nat}, lookupIdx d l = some i → l[i]? = some d := by
  intro l
  induction l with
  | nil => intro i h; exact absurd h (by simp [lookupIdx])
  | cons e es ih =>
    intro i h
    simp only [lookupIdx] at h
    split at h
    · rename_i he
      cases h
      simpa using he
    · rcases Option.map_eq_some'.mp h with ⟨j, hj, rfl⟩
      simpa using ih hj

theorem lookupIdx_lt_length {d : VNDef} {l : List VNDef} {i : Nat}
    (h : lookupIdx d l = some i) : i < l.length := by
  have := lookupIdx_getElem h
  by_contra hge
  rw [List.getElem?_eq_none (by omega)] at this
  exact absurd this (by simp)

theorem lookupIdx_append_left {d : VNDef} {l t : List VNDef} {i : Nat}
    (h : lookupIdx d l = some i) : lookupIdx d (l ++ t) = some i := by
  induction l generalizing i with
  | nil => exact absurd h (by simp [lookupIdx])
  | cons e es ih =>
    rw [List.cons_append]
    simp only [lookupIdx] at h ⊢
    split at h
    · rename_i he
      cases h
      rw [if_pos he]
    · rename_i he
      rw [if_neg he]
      rcases Option.map_eq_some'.mp h with ⟨j, hj, rfl⟩
      rw [ih hj]
      rfl

theorem lookupIdx_append_none {d : VNDef} {l t : List VNDef}
    (h : lookupIdx d l = none) :
    lookupIdx d (l ++ t) = (lookupIdx d t).map (· + l.length) := by
  induction l with
  | nil => simp
  | cons e es ih =>
    rw [List.cons_append]
    simp only [lookupIdx] at h ⊢
    split at h
    · exact absurd h (by simp)
    · rename_i he
      rw [if_neg he]
      have hnone : lookupIdx d es = none := Option.map_eq_none'.mp h
      rw [ih hnone]
      cases lookupIdx d t with
      | none => rfl
      | some j => simp; omega

/-- The hash-consed VN maps to its definition in the resulting store. -/
theorem hashCons_defAt_fst (s : ValueNumStore) (d : VNDef) :
    (hashCons s d).2.defAt (hashCons s d).1 = some d := by
  unfold hashCons
  cases hl : lookupIdx d s.defs with
  | some i =>
    have hi := lookupIdx_lt_length hl
    simp only [ValueNumStore.defAt]
    rw [if_neg (by omega)]
    have he : ChunkSize + i - ChunkSize = i := by omega
    rw [he]
    exact lookupIdx_getElem hl
  | none =>
    simp only [ValueNumStore.defAt]
    rw [if_neg (by omega)]
    have he : ChunkSize + s.defs.length - ChunkSize = s.defs.length := by omega
    rw [he]
    simp

theorem hashCons_ext (s : ValueNumStore) (d : VNDef) :
    s.ExtendedBy (hashCons s d).2 := by
  unfold hashCons
  cases hl : lookupIdx d s.defs with
  | some i => exact ValueNumStore.ExtendedBy.refl s
  | none => exact ⟨[d], by simp⟩

/-- Determinism core: once a definition has been hash-consed, looking it up
in any extension of the resulting store returns the same VN and leaves the
extension untouched. -/
theorem hashCons_stable {s s2 : ValueNumStore} {d : VNDef}
    (hext : (hashCons s d).2.ExtendedBy s2) :
    hashCons s2 d = ((hashCons s d).1, s2) := by
  obtain ⟨t, ht⟩ := hext
  unfold hashCons at ht ⊢
  cases hl : lookupIdx d s.defs with
  | some i =>
    rw [hl] at ht
    simp only at ht
    rw [ht, lookupIdx_append_left hl]
  | none =>
    rw [hl] at ht
    simp only at ht
    have ht' : s2.defs = s.defs ++ ([d] ++ t) := by rw [ht]; simp
    have h1 : lookupIdx d ([d] ++ t) = some 0 := by
      rw [List.singleton_append]
      simp [lookupIdx]
    rw [ht', lookupIdx_append_none hl, h1]
    simp

theorem getIntConst_hashCons_of_some {s : ValueNumStore} {vn : Nat} {x : Int}
    (d : VNDef) (h : getIntConst s vn = some x) :
    getIntConst (hashCons s d).2 vn = some x := by
  unfold getIntConst at *
  cases hd : s.defAt vn with
  | none => rw [hd] at h; exact absurd h (by simp)
  | some e =>
    rw [hd] at h
    rw [defAt_mono (hashCons_ext s d) hd]
    exact h

theorem defAt_append_cases (s : ValueNumStore) (d : VNDef) (vn : Nat) :
    (ValueNumStore.mk (s.defs ++ [d])).defAt vn = s.defAt vn ∨
      (ValueNumStore.mk (s.defs ++ [d])).defAt vn = some d := by
  unfold ValueNumStore.defAt
  split
  · left; rfl
  · rename_i hk
    simp only
    rcases Nat.lt_trichotomy (vn - ChunkSize) s.defs.length with hlt | heq | hgt
    · left; rw [List.getElem?_append_left hlt]
    · right
      rw [heq]
      simp
    · left
      have h1 : (s.defs ++ [d])[vn - ChunkSize]? = none :=
        List.getElem?_eq_none (by simp; omega)
      have h2 : s.defs[vn - ChunkSize]? = none :=
        List.getElem?_eq_none (by omega)
      rw [h1, h2]

theorem getIntConst_hashCons_nonCns {s : ValueNumStore} {d : VNDef} {vn : Nat}
    (hd : ∀ v, d ≠ .intCns v) :
    getIntConst (hashCons s d).2 vn = getIntConst s vn := by
  unfold hashCons
  cases hl : lookupIdx d s.defs with
  | some i => rfl
  | none =>
    simp only [getIntConst]
    rcases defAt_append_cases s d vn with h | h
    · rw [h]
    · rw [h]
      cases hds : s.defAt vn with
      | none =>
        cases d with
        | intCns v => exact absurd rfl (hd v)
        | funcApp ty f args => rfl
        | uniqueOpaque ty tag => rfl
      | some e =>
        have hmono : (ValueNumStore.mk (s.defs ++ [d])).defAt vn = some e :=
          defAt_mono ⟨[d], rfl⟩ hds
        rw [h] at hmono
        cases hmono
        cases d with
        | intCns v => exact absurd rfl (hd v)
        | funcApp ty f args => rfl
        | uniqueOpaque ty tag => rfl

end StoreLemmas

section ConstructorLemmas

theorem foldVal_congr {s s2 : ValueNumStore} {ty : VarType} {f : VNFunc}
    {a b : Nat} (ha : getIntConst s2 a = getIntConst s a)
    (hb : getIntConst s2 b = getIntConst s b) :
    foldVal s2 ty f a b = foldVal s ty f a b := by
  unfold foldVal
  rw [ha, hb]

theorem foldExcOf_congr {s s2 : ValueNumStore} {f : VNFunc} {a b : Nat}
    (ha : getIntConst s2 a = getIntConst s a)
    (hb : getIntConst s2 b = getIntConst s b) :
    foldExcOf s2 f a b = foldExcOf s f a b := by
  unfold foldExcOf
  rw [ha, hb]

theorem foldVal_some_getInt {s : ValueNumStore} {ty : VarType} {f : VNFunc}
    {a b : Nat} {v : Int} (hv : foldVal s ty f a b = some v) :
    (∃ x, getIntConst s a = some x) ∧ ∃ y, getIntConst s b = some y := by
  unfold foldVal at hv
  split at hv
  · split at hv
    · rename_i x y hx hy
      exact ⟨⟨x, hx⟩, ⟨y, hy⟩⟩
    · exact absurd hv (by simp)
  · exact absurd hv (by simp)

theorem VNForFuncCanonical_ext (s : ValueNumStore) (ty : VarType) (f : VNFunc)
    (a b : Nat) : s.ExtendedBy (VNForFuncCanonical s ty f a b).2 := by
  unfold VNForFuncCanonical
  cases foldVal s ty f a b with
  | some v => exact hashCons_ext s _
  | none => exact hashCons_ext s _

theorem VNForFuncCanonical_getInt_arg {s : ValueNumStore} {ty : VarType}
    {f : VNFunc} {a b vn : Nat} (h : vn = a ∨ vn = b) :
    getIntConst (VNForFuncCanonical s ty f a b).2 vn = getIntConst s vn := by
  unfold VNForFuncCanonical
  cases hv : foldVal s ty f a b with
  | some v =>
    obtain ⟨⟨x, hx⟩, ⟨y, hy⟩⟩ := foldVal_some_getInt hv
    show getIntConst (VNForIntCon s v).2 vn = getIntConst s vn
    unfold VNForIntCon
    rcases h with rfl | rfl
    · rw [getIntConst_hashCons_of_some _ hx, hx]
    · rw [getIntConst_hashCons_of_some _ hy, hy]
  | none =>
    show getIntConst (hashCons s (.funcApp ty f [a, b])).2 vn = getIntConst s vn
    exact getIntConst_hashCons_nonCns fun v h => VNDef.noConfusion h

theorem VNForFuncCanonical_stable {s s2 : ValueNumStore} {ty : VarType}
    {f : VNFunc} {a b : Nat}
    (hext : (VNForFuncCanonical s ty f a b).2.ExtendedBy s2)
    (ha : getIntConst s2 a = getIntConst s a)
    (hb : getIntConst s2 b = getIntConst s b) :
    VNForFuncCanonical s2 ty f a b = ((VNForFuncCanonical s ty f a b).1, s2) := by
  have hfv := @foldVal_congr s s2 ty f a b ha hb
  unfold VNForFuncCanonical at hext ⊢
  rw [hfv]
  cases hv : foldVal s ty f a b with
  | some v =>
    rw [hv] at hext
    exact hashCons_stable hext
  | none =>
    rw [hv] at hext
    exact hashCons_stable hext

theorem VNForFuncCanonical_idem (s : ValueNumStore) (ty : VarType) (f : VNFunc)
    (a b : Nat) :
    VNForFuncCanonical (VNForFuncCanonical s ty f a b).2 ty f a b =
      ((VNForFuncCanonical s ty f a b).1, (VNForFuncCanonical s ty f a b).2) :=
  VNForFuncCanonical_stable (ValueNumStore.ExtendedBy.refl _)
    (VNForFuncCanonical_getInt_arg (Or.inl rfl))
    (VNForFuncCanonical_getInt_arg (Or.inr rfl))

theorem VNForFunc2_idem (s : ValueNumStore) (ty : VarType) (f : VNFunc)
    (a b : Nat) :
    VNForFunc2 (VNForFunc2 s ty f a b).2 ty f a b =
      ((VNForFunc2 s ty f a b).1, (VNForFunc2 s ty f a b).2) := by
  unfold VNForFunc2
  exact VNForFuncCanonical_idem s ty f (canonArgs f a b).1 (canonArgs f a b).2

theorem VNForFuncN_idem (s : ValueNumStore) (ty : VarType) (f : VNFunc)
    (args : List Nat) :
    VNForFuncN (VNForFuncN s ty f args).2 ty f args =
      ((VNForFuncN s ty f args).1, (VNForFuncN s ty f args).2) :=
  hashCons_stable (ValueNumStore.ExtendedBy.refl _)

theorem canonArgs_cases (f : VNFunc) (a b : Nat) :
    canonArgs f a b = (a, b) ∨ canonArgs f a b = (b, a) := by
  unfold canonArgs
  split
  · exact Or.inr rfl
  · exact Or.inl rfl

theorem canonArgs_comm {f : VNFunc} (h : VNFuncIsCommutative f = true)
    (a b : Nat) : canonArgs f a b = canonArgs f b a := by
  unfold canonArgs
  rcases Nat.lt_trichotomy a b with hab | rfl | hba
  · rw [if_neg (by simp [h]; omega), if_pos (by simp [h]; omega)]
  · rfl
  · rw [if_pos (by simp [h]; omega), if_neg (by simp [h]; omega)]

end ConstructorLemmas

theorem all_bothEqual_maps {ps : List ValueNumPair}
    (h : (ps.all fun p => decide p.BothEqual) = true) :
    ps.map (·.conservative) = ps.map (·.liberal) := by
  apply List.map_congr_left
  intro p hp
  have := List.all_eq_true.mp h p hp
  exact (of_decide_eq_true this).symm

/-- C5: on one store, any two calls of the binary `VNForFunc` with
structurally equal, previously issued argument VNs return the same value
number, and likewise for the constant constructor `VNForIntCon`; the result
is moreover unchanged by any constructions performed in between (the second
call is evaluated on an arbitrary extension of the store the first call
produced, and leaves that store untouched). -/
theorem C5_hash_consing_determinism (s : ValueNumStore) (ty : VarType)
    (f : VNFunc) (a b : Nat) (c : Int)
    (hva : s.validVN a) (hvb : s.validVN b) :
    (∀ s2, (VNForFunc2 s ty f a b).2.ExtendedBy s2 →
      VNForFunc2 s2 ty f a b = ((VNForFunc2 s ty f a b).1, s2)) ∧
    ∀ s2, (VNForIntCon s c).2.ExtendedBy s2 →
      VNForIntCon s2 c = ((VNForIntCon s c).1, s2) := by
  constructor
  · intro s2 hext
    have hextS : s.ExtendedBy s2 :=
      (VNForFuncCanonical_ext s ty f (canonArgs f a b).1 (canonArgs f a b).2).trans hext
    have h1 : s.validVN (canonArgs f a b).1 := by
      rcases canonArgs_cases f a b with hc | hc <;> rw [hc] <;> assumption
    have h2 : s.validVN (canonArgs f a b).2 := by
      rcases canonArgs_cases f a b with hc | hc <;> rw [hc] <;> assumption
    show VNForFuncCanonical s2 ty f (canonArgs f a b).1 (canonArgs f a b).2 =
      ((VNForFuncCanonical s ty f (canonArgs f a b).1 (canonArgs f a b).2).1, s2)
    exact VNForFuncCanonical_stable hext (getIntConst_mono_valid h1 hextS)
      (getIntConst_mono_valid h2 hextS)
  · intro s2 hext
    exact hashCons_stable hext

theorem C5_hash_consing_determinism_witness :
    ValueNumStore.validVN ⟨[]⟩ 0 ∧ ValueNumStore.validVN ⟨[]⟩ 1 ∧
    (VNForFunc2 (VNForFunc2 ⟨[]⟩ .tInt .ADD 0 1).2 .tInt .ADD 0 1 =
      ((VNForFunc2 ⟨[]⟩ .tInt .ADD 0 1).1, (VNForFunc2 ⟨[]⟩ .tInt .ADD 0 1).2)) ∧
    VNForIntCon (VNForIntCon ⟨[]⟩ 10).2 10 =
      ((VNForIntCon ⟨[]⟩ 10).1, (VNForIntCon ⟨[]⟩ 10).2) := by
  have hv0 : ValueNumStore.validVN ⟨[]⟩ 0 := Or.inl (by decide)
  have hv1 : ValueNumStore.validVN ⟨[]⟩ 1 := Or.inl (by decide)
  refine ⟨hv0, hv1, ?_, ?_⟩
  · exact (C5_hash_consing_determinism ⟨[]⟩ .tInt .ADD 0 1 10 hv0 hv1).1 _
      (ValueNumStore.ExtendedBy.refl _)
  · exact (C5_hash_consing_determinism ⟨[]⟩ .tInt .ADD 0 1 10 hv0 hv1).2 _
      (ValueNumStore.ExtendedBy.refl _)

/-- C6: for a commutative function the binary `VNForFunc` is symmetric in its
arguments: the commutative canonicalization sorts the argument pair by
ascending VN before folding and before the table lookup, so both calls
coincide, store included. -/
theorem C6_commutativity_canonicalization (s : ValueNumStore) (ty : VarType)
    (f : VNFunc) (a b : Nat) (h : VNFuncIsCommutative f = true) :
    VNForFunc2 s ty f a b = VNForFunc2 s ty f b a := by
  show VNForFuncCanonical s ty f (canonArgs f a b).1 (canonArgs f a b).2 =
    VNForFuncCanonical s ty f (canonArgs f b a).1 (canonArgs f b a).2
  rw [canonArgs_comm h]

theorem C6_commutativity_canonicalization_witness :
    VNFuncIsCommutative .ADD = true ∧
    VNForFunc2 ⟨[]⟩ .tInt .ADD 70 69 = VNForFunc2 ⟨[]⟩ .tInt .ADD 69 70 :=
  ⟨by decide, C6_commutativity_canonicalization ⟨[]⟩ .tInt .ADD 70 69 (by decide)⟩

/-- C9: the short-circuiting paired constructors compute exactly the same
pair (and the same final store) as the naive implementations that apply the
per-side operation to the liberal arguments and then to the conservative
arguments unconditionally: when every argument pair has equal halves, the
skipped conservative call would have returned the liberal result on an
unchanged store.  Stated for the uniform n-ary constructor (covering the
arity-0 through arity-4 overloads) and for the binary folding and
no-folding constructors of valuenum.h:906-937. -/
theorem C9_paired_constructors_equivalent (s : ValueNumStore) (ty : VarType)
    (f : VNFunc) (ps : List ValueNumPair) (p q : ValueNumPair) :
    VNPairForFuncN s ty f ps = VNPairForFuncNNaive s ty f ps ∧
    VNPairForFunc2 s ty f p q = VNPairForFunc2Naive s ty f p q ∧
    VNPairForFuncNoFolding2 s ty f p q = VNPairForFuncNoFolding2Naive s ty f p q := by
  refine ⟨?_, ?_, ?_⟩
  · by_cases hall : (ps.all fun r => decide r.BothEqual) = true
    · simp only [VNPairForFuncN, VNPairForFuncNNaive, if_pos hall]
      rw [all_bothEqual_maps hall, VNForFuncN_idem]
    · simp only [VNPairForFuncN, VNPairForFuncNNaive, if_neg hall]
  · by_cases hc : p.BothEqual ∧ q.BothEqual
    · simp only [VNPairForFunc2, VNPairForFunc2Naive, if_pos hc]
      obtain ⟨hp, hq⟩ := hc
      unfold ValueNumPair.BothEqual at hp hq
      rw [← hp, ← hq, VNForFunc2_idem]
    · simp only [VNPairForFunc2, VNPairForFunc2Naive, if_neg hc]
  · by_cases hc : p.BothEqual ∧ q.BothEqual
    · simp only [VNPairForFuncNoFolding2, VNPairForFuncNoFolding2Naive, if_pos hc]
      obtain ⟨hp, hq⟩ := hc
      unfold ValueNumPair.BothEqual at hp hq
      unfold VNForFuncNoFolding2
      rw [← hp, ← hq, VNForFuncN_idem]
    · simp only [VNPairForFuncNoFolding2, VNPairForFuncNoFolding2Naive, if_neg hc]

/-- C10: `VNForNull`, `VNForVoid` and `VNForEmptyExcSet` are store-independent
constants returning the three pairwise-distinct reserved VNs of the
`SpecialRefConsts` enumeration, all drawn from the reserved chunk 0; they are
valid in every store (in particular in a freshly constructed one), so they do
not depend on any operation previously performed. -/
theorem C10_reserved_special_constants :
    (VNForNull ≠ VNForVoid ∧ VNForNull ≠ VNForEmptyExcSet ∧
      VNForVoid ≠ VNForEmptyExcSet) ∧
    (GetChunkNum VNForNull = 0 ∧ GetChunkNum VNForVoid = 0 ∧
      GetChunkNum VNForEmptyExcSet = 0) ∧
    (VNForNull < SRC_NumSpecialRefConsts ∧ VNForVoid < SRC_NumSpecialRefConsts ∧
      VNForEmptyExcSet < SRC_NumSpecialRefConsts) ∧
    ∀ s : ValueNumStore, s.validVN VNForNull ∧ s.validVN VNForVoid ∧
      s.validVN VNForEmptyExcSet :=
  ⟨by decide, by decide, by decide,
    fun s => ⟨Or.inl (by decide), Or.inl (by decide), Or.inl (by decide)⟩⟩

theorem VNForExpr_fresh (s : ValueNumStore) (ty : VarType) :
    s.nextVN ≤ (VNForExpr s ty).1 ∧
      (VNForExpr s ty).2.defAt (VNForExpr s ty).1 =
        some (.uniqueOpaque ty s.defs.length) := by
  constructor
  · exact Nat.le_refl _
  · show (ValueNumStore.mk (s.defs ++ [.uniqueOpaque ty s.defs.length])).defAt
        s.nextVN = _
    unfold ValueNumStore.defAt ValueNumStore.nextVN
    rw [if_neg (by omega)]
    simp

theorem VNForExpr_ext (s : ValueNumStore) (ty : VarType) :
    s.ExtendedBy (VNForExpr s ty).2 :=
  ⟨[.uniqueOpaque ty s.defs.length], rfl⟩

theorem defAt_new_cases {s : ValueNumStore} {d : VNDef} {vn : Nat} {e : VNDef}
    (h : (ValueNumStore.mk (s.defs ++ [d])).defAt vn = some e) :
    s.defAt vn = some e ∨ e = d := by
  rcases defAt_append_cases s d vn with hc | hc
  · rw [hc] at h; exact Or.inl h
  · rw [hc] at h
    cases h
    exact Or.inr rfl

theorem hashCons_defAt_new_cases {s : ValueNumStore} {d : VNDef} {vn : Nat}
    {e : VNDef} (h : (hashCons s d).2.defAt vn = some e) :
    s.defAt vn = some e ∨ e = d := by
  unfold hashCons at h
  cases hl : lookupIdx d s.defs with
  | some i => rw [hl] at h; exact Or.inl h
  | none =>
    rw [hl] at h
    exact defAt_new_cases h

theorem ValueNumStore.ExtendedBy.nextVN_le {s s' : ValueNumStore}
    (h : s.ExtendedBy s') : s.nextVN ≤ s'.nextVN := by
  obtain ⟨t, ht⟩ := h
  unfold ValueNumStore.nextVN
  rw [ht]
  simp

/-- C8: when constant folding of two int32 constant operands would raise
(division by zero, overflowing signed division, or an overflowing checked
operation), the exception-aware constructor produces no VN for a value: the
returned VN is a `ValWithExc` whose normal part is a freshly allocated opaque
VN of the operation's result type (no previously issued VN) and whose
exception set is the singleton of the appropriate exception, and no integer
constant is hash-consed by the call. -/
theorem C8_fold_exception_never_conses_value (s : ValueNumStore)
    (ty : VarType) (f : VNFunc) (a b : Nat) (e : VNFunc)
    (he : foldExcOf s f (canonArgs f a b).1 (canonArgs f a b).2 = some e) :
    ∃ u xs ev,
      (VNForFuncWithExc s ty f a b).2.defAt (VNForFuncWithExc s ty f a b).1 =
        some (.funcApp ty .ValWithExcFn [u, xs]) ∧
      (∃ tag, (VNForFuncWithExc s ty f a b).2.defAt u =
        some (.uniqueOpaque ty tag)) ∧
      s.nextVN ≤ u ∧
      (VNForFuncWithExc s ty f a b).2.defAt xs =
        some (.funcApp .tRef .ExcSetConsFn [ev, VNForEmptyExcSet]) ∧
      (VNForFuncWithExc s ty f a b).2.defAt ev = some (.funcApp .tRef e []) ∧
      ∀ k z, (VNForFuncWithExc s ty f a b).2.defAt k = some (.intCns z) →
        s.defAt k = some (.intCns z) := by
  have hres : VNForFuncWithExc s ty f a b =
      hashCons (VNForExpr (VNExcSetSingleton s e).2 ty).2
        (.funcApp ty .ValWithExcFn [(VNForExpr (VNExcSetSingleton s e).2 ty).1,
          (VNExcSetSingleton s e).1]) := by
    simp only [VNForFuncWithExc]
    rw [he]
  rw [hres]
  have hxs2 : (VNExcSetSingleton s e).2 =
      (hashCons (hashCons s (.funcApp .tRef e [])).2
        (.funcApp .tRef .ExcSetConsFn [(hashCons s (.funcApp .tRef e [])).1, 2])).2 :=
    rfl
  have hextxs : s.ExtendedBy (VNExcSetSingleton s e).2 := by
    rw [hxs2]
    exact (hashCons_ext s _).trans (hashCons_ext _ _)
  have hextu : (VNExcSetSingleton s e).2.ExtendedBy
      (VNForExpr (VNExcSetSingleton s e).2 ty).2 := VNForExpr_ext _ _
  have hextr : (VNForExpr (VNExcSetSingleton s e).2 ty).2.ExtendedBy
      (hashCons (VNForExpr (VNExcSetSingleton s e).2 ty).2
        (.funcApp ty .ValWithExcFn [(VNForExpr (VNExcSetSingleton s e).2 ty).1,
          (VNExcSetSingleton s e).1])).2 := hashCons_ext _ _
  refine ⟨(VNForExpr (VNExcSetSingleton s e).2 ty).1, (VNExcSetSingleton s e).1,
    (hashCons s (.funcApp .tRef e [])).1, ?_, ?_, ?_, ?_, ?_, ?_⟩
  · exact hashCons_defAt_fst _ _
  · refine ⟨(VNExcSetSingleton s e).2.defs.length, ?_⟩
    exact defAt_mono hextr (VNForExpr_fresh (VNExcSetSingleton s e).2 ty).2
  · exact hextxs.nextVN_le
  · refine defAt_mono hextr (defAt_mono hextu ?_)
    rw [hxs2]
    exact hashCons_defAt_fst _ _
  · refine defAt_mono hextr (defAt_mono hextu ?_)
    rw [hxs2]
    exact defAt_mono (hashCons_ext _ _) (hashCons_defAt_fst s _)
  · intro k z hk
    rcases hashCons_defAt_new_cases hk with hk | hk
    · rcases defAt_new_cases hk with hk | hk
      · rw [hxs2] at hk
        rcases hashCons_defAt_new_cases hk with hk | hk
        · rcases hashCons_defAt_new_cases hk with hk | hk
          · exact hk
          · exact absurd hk (by intro hc; cases hc)
        · exact absurd hk (by intro hc; cases hc)
      · exact absurd hk (by intro hc; cases hc)
    · exact absurd hk (by intro hc; cases hc)

theorem C8_fold_exception_never_conses_value_witness :
    foldExcOf ⟨[.intCns 10, .intCns 0]⟩ .DIV
        (canonArgs .DIV (ChunkSize + 0) (ChunkSize + 1)).1
        (canonArgs .DIV (ChunkSize + 0) (ChunkSize + 1)).2 =
      some .DivByZeroExcFn ∧
    ∃ u xs ev,
      (VNForFuncWithExc ⟨[.intCns 10, .intCns 0]⟩ .tInt .DIV (ChunkSize + 0)
            (ChunkSize + 1)).2.defAt
          (VNForFuncWithExc ⟨[.intCns 10, .intCns 0]⟩ .tInt .DIV (ChunkSize + 0)
            (ChunkSize + 1)).1 =
        some (.funcApp .tInt .ValWithExcFn [u, xs]) ∧
      (∃ tag, (VNForFuncWithExc ⟨[.intCns 10, .intCns 0]⟩ .tInt .DIV
          (ChunkSize + 0) (ChunkSize + 1)).2.defAt u =
        some (.uniqueOpaque .tInt tag)) ∧
      ValueNumStore.nextVN ⟨[.intCns 10, .intCns 0]⟩ ≤ u ∧
      (VNForFuncWithExc ⟨[.intCns 10, .intCns 0]⟩ .tInt .DIV (ChunkSize + 0)
          (ChunkSize + 1)).2.defAt xs =
        some (.funcApp .tRef .ExcSetConsFn [ev, VNForEmptyExcSet]) ∧
      (VNForFuncWithExc ⟨[.intCns 10, .intCns 0]⟩ .tInt .DIV (ChunkSize + 0)
          (ChunkSize + 1)).2.defAt ev = some (.funcApp .tRef .DivByZeroExcFn []) ∧
      ∀ k z, (VNForFuncWithExc ⟨[.intCns 10, .intCns 0]⟩ .tInt .DIV (ChunkSize + 0)
          (ChunkSize + 1)).2.defAt k = some (.intCns z) →
        ValueNumStore.defAt ⟨[.intCns 10, .intCns 0]⟩ k = some (.intCns z) :=
  ⟨by decide,
    C8_fold_exception_never_conses_value ⟨[.intCns 10, .intCns 0]⟩ .tInt .DIV
      (ChunkSize + 0) (ChunkSize + 1) .DivByZeroExcFn (by decide)⟩

section ExcSetLemmas

theorem excSetOrdered_iff_pairwise (xs : List Nat) :
    excSetOrdered xs = true ↔ List.Pairwise (· < ·) xs := by
  induction xs with
  | nil => simp [excSetOrdered]
  | cons x ys ih =>
    simp only [excSetOrdered, Bool.and_eq_true, List.pairwise_cons]
    constructor
    · rintro ⟨h1, h2⟩
      have hp := ih.mp h2
      refine ⟨?_, hp⟩
      intro a ha
      cases ys with
      | nil => cases ha
      | cons y zs =>
        have hxy : x < y := by simpa [VNCheckAscending] using h1
        rcases List.mem_cons.mp ha with rfl | ha2
        · exact hxy
        · exact hxy.trans (List.rel_of_pairwise_cons hp ha2)
    · rintro ⟨h1, h2⟩
      refine ⟨?_, ih.mpr h2⟩
      cases ys with
      | nil => rfl
      | cons y zs => simpa [VNCheckAscending] using h1 y (by simp)

theorem excSetMergeFuel_mem :
    ∀ fuel xs ys (a : Nat), a ∈ excSetMergeFuel fuel xs ys → a ∈ xs ∨ a ∈ ys := by
  intro fuel
  induction fuel with
  | zero =>
    intro xs ys a h
    exact List.mem_append.mp (by simpa [excSetMergeFuel] using h)
  | succ f ih =>
    intro xs ys a h
    cases xs with
    | nil => exact Or.inr (by simpa [excSetMergeFuel] using h)
    | cons x xs' =>
      cases ys with
      | nil => exact Or.inl (by simpa [excSetMergeFuel] using h)
      | cons y ys' =>
        simp only [excSetMergeFuel] at h
        by_cases h1 : x < y
        · rw [if_pos h1] at h
          rcases List.mem_cons.mp h with rfl | h2
          · exact Or.inl (by simp)
          · rcases ih _ _ _ h2 with h3 | h3
            · exact Or.inl (List.mem_cons_of_mem _ h3)
            · exact Or.inr h3
        · rw [if_neg h1] at h
          by_cases h2 : y < x
          · rw [if_pos h2] at h
            rcases List.mem_cons.mp h with rfl | h3
            · exact Or.inr (by simp)
            · rcases ih _ _ _ h3 with h4 | h4
              · exact Or.inl h4
              · exact Or.inr (List.mem_cons_of_mem _ h4)
          · rw [if_neg h2] at h
            rcases List.mem_cons.mp h with rfl | h3
            · exact Or.inl (by simp)
            · rcases ih _ _ _ h3 with h4 | h4
              · exact Or.inl (List.mem_cons_of_mem _ h4)
              · exact Or.inr (List.mem_cons_of_mem _ h4)

theorem excSetMergeFuel_pairwise :
    ∀ fuel xs ys, xs.length + ys.length ≤ fuel →
      List.Pairwise (· < ·) xs → List.Pairwise (· < ·) ys →
      List.Pairwise (· < ·) (excSetMergeFuel fuel xs ys) := by
  intro fuel
  induction fuel with
  | zero =>
    intro xs ys hlen hx hy
    have hxs : xs = [] := List.length_eq_zero.mp (by omega)
    have hys : ys = [] := List.length_eq_zero.mp (by omega)
    subst hxs hys
    simp [excSetMergeFuel]
  | succ f ih =>
    intro xs ys hlen hx hy
    cases xs with
    | nil => simpa [excSetMergeFuel] using hy
    | cons x xs' =>
      cases ys with
      | nil => simpa [excSetMergeFuel] using hx
      | cons y ys' =>
        simp only [excSetMergeFuel]
        simp only [List.length_cons] at hlen
        by_cases h1 : x < y
        · rw [if_pos h1, List.pairwise_cons]
          constructor
          · intro a ha
            rcases excSetMergeFuel_mem f _ _ a ha with h2 | h2
            · exact List.rel_of_pairwise_cons hx h2
            · rcases List.mem_cons.mp h2 with rfl | h3
              · exact h1
              · exact h1.trans (List.rel_of_pairwise_cons hy h3)
          · exact ih _ _ (by simp; omega) (List.Pairwise.of_cons hx) hy
        · rw [if_neg h1]
          by_cases h2 : y < x
          · rw [if_pos h2, List.pairwise_cons]
            constructor
            · intro a ha
              rcases excSetMergeFuel_mem f _ _ a ha with h3 | h3
              · rcases List.mem_cons.mp h3 with rfl | h4
                · exact h2
                · exact h2.trans (List.rel_of_pairwise_cons hx h4)
              · exact List.rel_of_pairwise_cons hy h3
            · exact ih _ _ (by simp; omega) hx (List.Pairwise.of_cons hy)
          · rw [if_neg h2, List.pairwise_cons]
            have hxy : x = y := by omega
            constructor
            · intro a ha
              rcases excSetMergeFuel_mem f _ _ a ha with h3 | h3
              · exact List.rel_of_pairwise_cons hx h3
              · rw [hxy]
                exact List.rel_of_pairwise_cons hy h3
            · exact ih _ _ (by omega) (List.Pairwise.of_cons hx)
                (List.Pairwise.of_cons hy)

theorem excSetInterFuel_sublist :
    ∀ fuel xs ys, (excSetInterFuel fuel xs ys).Sublist xs := by
  intro fuel
  induction fuel with
  | zero => intro xs ys; simp [excSetInterFuel]
  | succ f ih =>
    intro xs ys
    cases xs with
    | nil => simp [excSetInterFuel]
    | cons x xs' =>
      cases ys with
      | nil => simp [excSetInterFuel]
      | cons y ys' =>
        simp only [excSetInterFuel]
        by_cases h1 : x < y
        · rw [if_pos h1]
          exact (ih xs' (y :: ys')).trans (List.sublist_cons_self x xs')
        · rw [if_neg h1]
          by_cases h2 : y < x
          · rw [if_pos h2]
            exact ih (x :: xs') ys'
          · rw [if_neg h2]
            exact (ih xs' ys').cons₂ x

end ExcSetLemmas

/-- C7: an exception set is `EmptyExcSet` (the empty chain) or an
`ExcSetCons` chain whose head is strictly below the head of its tail with a
well-formed tail, and both `VNExcSetUnion` and `VNExcSetIntersection`, on
well-formed (strictly ascending, hence duplicate-free) exception sets,
return a strictly ascending, duplicate-free exception set. -/
theorem C7_exc_set_ordering_invariant (xs ys : List Nat)
    (hx : excSetOrdered xs = true) (hy : excSetOrdered ys = true) :
    (xs = [] ∨ ∃ h t, xs = h :: t ∧ VNCheckAscending h t = true ∧
      excSetOrdered t = true) ∧
    excSetOrdered (VNExcSetUnion xs ys) = true ∧
    excSetOrdered (VNExcSetIntersection xs ys) = true := by
  refine ⟨?_, ?_, ?_⟩
  · cases xs with
    | nil => exact Or.inl rfl
    | cons h t =>
      have hx' := hx
      simp only [excSetOrdered, Bool.and_eq_true] at hx'
      exact Or.inr ⟨h, t, rfl, hx'.1, hx'.2⟩
  · rw [excSetOrdered_iff_pairwise]
    exact excSetMergeFuel_pairwise _ _ _ (Nat.le_refl _)
      ((excSetOrdered_iff_pairwise xs).mp hx)
      ((excSetOrdered_iff_pairwise ys).mp hy)
  · rw [excSetOrdered_iff_pairwise]
    exact List.Pairwise.sublist (excSetInterFuel_sublist _ _ _)
      ((excSetOrdered_iff_pairwise xs).mp hx)

theorem C7_exc_set_ordering_invariant_witness :
    excSetOrdered [4, 9] = true ∧ excSetOrdered [4, 7, 12] = true ∧
    (([4, 9] : List Nat) = [] ∨ ∃ h t, ([4, 9] : List Nat) = h :: t ∧
      VNCheckAscending h t = true ∧ excSetOrdered t = true) ∧
    excSetOrdered (VNExcSetUnion [4, 9] [4, 7, 12]) = true ∧
    excSetOrdered (VNExcSetIntersection [4, 9] [4, 7, 12]) = true :=
  ⟨by decide, by decide,
    (C7_exc_set_ordering_invariant [4, 9] [4, 7, 12] (by decide) (by decide)).1,
    (C7_exc_set_ordering_invariant [4, 9] [4, 7, 12] (by decide) (by decide)).2.1,
    (C7_exc_set_ordering_invariant [4, 9] [4, 7, 12] (by decide) (by decide)).2.2⟩

section SelectEngineLemmas

/-- The bookkeeping of the select budget is sound: a worker invocation never
reports more consumed select-steps than the budget it was given. -/
theorem selectWork_steps_le (env : Nat → VNE) :
    ∀ (f b : Nat) (stack : List (VNE × VNE)) (maps : List VNE) (i : VNE)
      (p : Bool), (VNForMapSelectWork env f b stack maps i p).2 ≤ b := by
  intro f
  induction f with
  | zero => intro b stack maps i p; simp [VNForMapSelectWork]
  | succ f ih =>
    intro b stack maps i p
    cases b with
    | zero => simp [VNForMapSelectWork]
    | succ b =>
      cases maps with
      | nil => simp [VNForMapSelectWork]
      | cons map rest =>
        cases hstep : stepOf stack map i p with
        | ret r =>
          have h := ih b stack rest i p
          have hred : (VNForMapSelectWork env (f + 1) (b + 1) stack
              (map :: rest) i p).2 =
              (VNForMapSelectWork env f b stack rest i p).2 + 1 := by
            simp only [VNForMapSelectWork, hstep]
          rw [hred]
          omega
        | descend m =>
          have h := ih b stack (m :: rest) i p
          have hred : (VNForMapSelectWork env (f + 1) (b + 1) stack
              (map :: rest) i p).2 =
              (VNForMapSelectWork env f b stack (m :: rest) i p).2 + 1 := by
            simp only [VNForMapSelectWork, hstep]
          rw [hred]
          omega
        | phiArgs args =>
          have h1 := ih b ((map, i) :: stack) (args.map env) i p
          have h2 := ih (b - (VNForMapSelectWork env f b ((map, i) :: stack)
            (args.map env) i p).2) stack rest i p
          have hred : (VNForMapSelectWork env (f + 1) (b + 1) stack
              (map :: rest) i p).2 =
              (VNForMapSelectWork env f b ((map, i) :: stack) (args.map env) i p).2 +
              (VNForMapSelectWork env f
                (b - (VNForMapSelectWork env f b ((map, i) :: stack)
                  (args.map env) i p).2) stack rest i p).2 + 1 := by
            simp only [VNForMapSelectWork, hstep]
          rw [hred]
          omega

/-- Budget irrelevance below exhaustion: a worker invocation that finishes
with strictly fewer consumed steps than its budget computes the same results
and the same step count under any larger budget (with adequate fuel). -/
theorem selectWork_mono (env : Nat → VNE) :
    ∀ (f1 f2 b1 b2 : Nat) (stack : List (VNE × VNE)) (maps : List VNE)
      (i : VNE) (p : Bool), b1 < f1 → b2 < f2 → b1 ≤ b2 →
      (VNForMapSelectWork env f1 b1 stack maps i p).2 < b1 →
      VNForMapSelectWork env f2 b2 stack maps i p =
        VNForMapSelectWork env f1 b1 stack maps i p := by
  intro f1
  induction f1 with
  | zero =>
    intro f2 b1 b2 stack maps i p hb1 _ _ _
    exact absurd hb1 (Nat.not_lt_zero b1)
  | succ f ihf =>
    intro f2 b1 b2 stack maps i p hb1 hb2 hble hst
    cases b1 with
    | zero => exact absurd hst (Nat.not_lt_zero _)
    | succ c =>
      cases f2 with
      | zero => exact absurd hb2 (Nat.not_lt_zero b2)
      | succ g =>
        cases b2 with
        | zero => exact absurd hble (by omega)
        | succ d =>
          cases maps with
          | nil => rfl
          | cons map rest =>
            cases hstep : stepOf stack map i p with
            | ret r =>
              have hst' : (VNForMapSelectWork env f c stack rest i p).2 + 1 <
                  c + 1 := by
                have hred : (VNForMapSelectWork env (f + 1) (c + 1) stack
                    (map :: rest) i p).2 =
                    (VNForMapSelectWork env f c stack rest i p).2 + 1 := by
                  simp only [VNForMapSelectWork, hstep]
                rw [hred] at hst
                exact hst
              have heq := ihf g c d stack rest i p (by omega) (by omega)
                (by omega) (by omega)
              have hredL : VNForMapSelectWork env (g + 1) (d + 1) stack
                  (map :: rest) i p =
                  ((r :: (VNForMapSelectWork env g d stack rest i p).1),
                    (VNForMapSelectWork env g d stack rest i p).2 + 1) := by
                simp only [VNForMapSelectWork, hstep]
              have hredR : VNForMapSelectWork env (f + 1) (c + 1) stack
                  (map :: rest) i p =
                  ((r :: (VNForMapSelectWork env f c stack rest i p).1),
                    (VNForMapSelectWork env f c stack rest i p).2 + 1) := by
                simp only [VNForMapSelectWork, hstep]
              rw [hredL, hredR, heq]
            | descend m =>
              have hst' : (VNForMapSelectWork env f c stack (m :: rest) i p).2 +
                  1 < c + 1 := by
                have hred : (VNForMapSelectWork env (f + 1) (c + 1) stack
                    (map :: rest) i p).2 =
                    (VNForMapSelectWork env f c stack (m :: rest) i p).2 + 1 := by
                  simp only [VNForMapSelectWork, hstep]
                rw [hred] at hst
                exact hst
              have heq := ihf g c d stack (m :: rest) i p (by omega) (by omega)
                (by omega) (by omega)
              have hredL : VNForMapSelectWork env (g + 1) (d + 1) stack
                  (map :: rest) i p =
                  ((VNForMapSelectWork env g d stack (m :: rest) i p).1,
                    (VNForMapSelectWork env g d stack (m :: rest) i p).2 + 1) := by
                simp only [VNForMapSelectWork, hstep]
              have hredR : VNForMapSelectWork env (f + 1) (c + 1) stack
                  (map :: rest) i p =
                  ((VNForMapSelectWork env f c stack (m :: rest) i p).1,
                    (VNForMapSelectWork env f c stack (m :: rest) i p).2 + 1) := by
                simp only [VNForMapSelectWork, hstep]
              rw [hredL, hredR, heq]
            | phiArgs args =>
              have hredR : VNForMapSelectWork env (f + 1) (c + 1) stack
                  (map :: rest) i p =
                  (phiCombine map i p (VNForMapSelectWork env f c
                      ((map, i) :: stack) (args.map env) i p).1 ::
                    (VNForMapSelectWork env f
                      (c - (VNForMapSelectWork env f c ((map, i) :: stack)
                        (args.map env) i p).2) stack rest i p).1,
                    (VNForMapSelectWork env f c ((map, i) :: stack)
                      (args.map env) i p).2 +
                    (VNForMapSelectWork env f
                      (c - (VNForMapSelectWork env f c ((map, i) :: stack)
                        (args.map env) i p).2) stack rest i p).2 + 1) := by
                simp only [VNForMapSelectWork, hstep]
              have hredL : VNForMapSelectWork env (g + 1) (d + 1) stack
                  (map :: rest) i p =
                  (phiCombine map i p (VNForMapSelectWork env g d
                      ((map, i) :: stack) (args.map env) i p).1 ::
                    (VNForMapSelectWork env g
                      (d - (VNForMapSelectWork env g d ((map, i) :: stack)
                        (args.map env) i p).2) stack rest i p).1,
                    (VNForMapSelectWork env g d ((map, i) :: stack)
                      (args.map env) i p).2 +
                    (VNForMapSelectWork env g
                      (d - (VNForMapSelectWork env g d ((map, i) :: stack)
                        (args.map env) i p).2) stack rest i p).2 + 1) := by
                simp only [VNForMapSelectWork, hstep]
              rw [hredR] at hst
              have hsa : (VNForMapSelectWork env f c ((map, i) :: stack)
                  (args.map env) i p).2 < c := by omega
              have hsr : (VNForMapSelectWork env f
                  (c - (VNForMapSelectWork env f c ((map, i) :: stack)
                    (args.map env) i p).2) stack rest i p).2 <
                  c - (VNForMapSelectWork env f c ((map, i) :: stack)
                    (args.map env) i p).2 := by omega
              have heqa := ihf g c d ((map, i) :: stack) (args.map env) i p
                (by omega) (by omega) (by omega) hsa
              have heqr := ihf g
                (c - (VNForMapSelectWork env f c ((map, i) :: stack)
                  (args.map env) i p).2)
                (d - (VNForMapSelectWork env f c ((map, i) :: stack)
                  (args.map env) i p).2) stack rest i p
                (by omega) (by omega) (by omega) hsr
              rw [hredL, hredR, heqa, heqr]

/-- The worker returns one selection result per pending map. -/
theorem selectWork_length (env : Nat → VNE) :
    ∀ (f b : Nat) (stack : List (VNE × VNE)) (maps : List VNE) (i : VNE)
      (p : Bool), (VNForMapSelectWork env f b stack maps i p).1.length =
        maps.length := by
  intro f
  induction f with
  | zero => intro b stack maps i p; simp [VNForMapSelectWork]
  | succ f ih =>
    intro b stack maps i p
    cases b with
    | zero => simp [VNForMapSelectWork]
    | succ b =>
      cases maps with
      | nil => simp [VNForMapSelectWork]
      | cons map rest =>
        cases hstep : stepOf stack map i p with
        | ret r =>
          have hred : (VNForMapSelectWork env (f + 1) (b + 1) stack
              (map :: rest) i p).1 =
              r :: (VNForMapSelectWork env f b stack rest i p).1 := by
            simp only [VNForMapSelectWork, hstep]
          rw [hred]
          simp [ih b stack rest i p]
        | descend m =>
          have hred : (VNForMapSelectWork env (f + 1) (b + 1) stack
              (map :: rest) i p).1 =
              (VNForMapSelectWork env f b stack (m :: rest) i p).1 := by
            simp only [VNForMapSelectWork, hstep]
          rw [hred]
          rw [ih b stack (m :: rest) i p]
          simp
        | phiArgs args =>
          have hred : (VNForMapSelectWork env (f + 1) (b + 1) stack
              (map :: rest) i p).1 =
              phiCombine map i p (VNForMapSelectWork env f b ((map, i) :: stack)
                (args.map env) i p).1 ::
              (VNForMapSelectWork env f
                (b - (VNForMapSelectWork env f b ((map, i) :: stack)
                  (args.map env) i p).2) stack rest i p).1 := by
            simp only [VNForMapSelectWork, hstep]
          rw [hred]
          simp [ih]

theorem headD_congr {l : List VNE} (h : l.length ≠ 0) (d1 d2 : VNE) :
    l.headD d1 = l.headD d2 := by
  cases l with
  | nil => exact absurd rfl h
  | cons x xs => rfl

theorem decode_encode {offset size : Nat} (hs : size < 2 ^ 32) :
    DecodePhysicalSelector (EncodePhysicalSelector offset size) =
      (offset, size) := by
  unfold DecodePhysicalSelector EncodePhysicalSelector
  rw [Nat.mod_eq_of_lt hs, Nat.mul_comm, Prod.mk.injEq]
  refine ⟨?_, ?_⟩
  · rw [Nat.mul_add_div (by norm_num), Nat.div_eq_of_lt hs, Nat.add_zero]
  · rw [Nat.mul_add_mod, Nat.mod_eq_of_lt hs]

theorem phiCombine_eq_of_agree {map i : VNE} {p : Bool} {rs : List VNE}
    {w : VNE} (hwne : w ≠ .recVN) (hwin : w ∈ rs)
    (hagree : ∀ r ∈ rs, r ≠ .recVN → r = w) : phiCombine map i p rs = w := by
  have hwmem : w ∈ rs.filter fun r => !decide (r = VNE.recVN) :=
    List.mem_filter.mpr ⟨hwin, by simp [hwne]⟩
  have hall : ∀ x ∈ rs.filter fun r => !decide (r = VNE.recVN), x = w := by
    intro x hx
    obtain ⟨hxin, hxp⟩ := List.mem_filter.mp hx
    exact hagree x hxin (by simpa using hxp)
  unfold phiCombine
  cases hnr : rs.filter fun r => !decide (r = VNE.recVN) with
  | nil => rw [hnr] at hwmem; cases hwmem
  | cons w' ws =>
    have hw' : w' = w := hall w' (hnr ▸ List.mem_cons_self w' ws)
    have hws : (ws.all fun r => decide (r = w')) = true := by
      rw [List.all_eq_true]
      intro x hx
      have hxw : x = w := hall x (hnr ▸ List.mem_cons_of_mem w' hx)
      simp [hxw, hw']
    show (if (ws.all fun r => decide (r = w')) = true then w'
      else giveUpTerm map i p) = w
    rw [if_pos hws]
    exact hw'

theorem phiCombine_giveUp_of_all_recursive {map i : VNE} {p : Bool}
    {rs : List VNE} (h : ∀ r ∈ rs, r = .recVN) :
    phiCombine map i p rs = giveUpTerm map i p := by
  have hnr : (rs.filter fun r => !decide (r = VNE.recVN)) = [] := by
    rw [List.filter_eq_nil_iff]
    intro a ha
    simp [h a ha]
  unfold phiCombine
  rw [hnr]

theorem phiCombine_giveUp_of_disagree {map i : VNE} {p : Bool} {rs : List VNE}
    {r1 r2 : VNE} (h1 : r1 ∈ rs) (h2 : r2 ∈ rs) (hn1 : r1 ≠ .recVN)
    (hn2 : r2 ≠ .recVN) (hne : r1 ≠ r2) :
    phiCombine map i p rs = giveUpTerm map i p := by
  have hm1 : r1 ∈ rs.filter fun r => !decide (r = VNE.recVN) :=
    List.mem_filter.mpr ⟨h1, by simp [hn1]⟩
  have hm2 : r2 ∈ rs.filter fun r => !decide (r = VNE.recVN) :=
    List.mem_filter.mpr ⟨h2, by simp [hn2]⟩
  unfold phiCombine
  cases hnr : rs.filter fun r => !decide (r = VNE.recVN) with
  | nil => rfl
  | cons w' ws =>
    rw [hnr] at hm1 hm2
    have hws : (ws.all fun r => decide (r = w')) ≠ true := by
      intro hall
      rw [List.all_eq_true] at hall
      have e1 : r1 = w' := by
        rcases List.mem_cons.mp hm1 with he | he
        · exact he
        · simpa using hall r1 he
      have e2 : r2 = w' := by
        rcases List.mem_cons.mp hm2 with he | he
        · exact he
        · simpa using hall r2 he
      exact hne (e1.trans e2.symm)
    show (if (ws.all fun r => decide (r = w')) = true then w'
      else giveUpTerm map i p) = giveUpTerm map i p
    rw [if_neg hws]

end SelectEngineLemmas

/-- C1 (amended): selecting from a precise `MapStore` at the very index
stored returns the stored value; selecting at a different constant index
skips the store and equals the selection from the underlying map, provided
the traversal of the underlying map finishes strictly within the remaining
select budget.  (As originally stated, without the budget proviso, the
second equation fails at the budget boundary; see the counterexample.) -/
theorem C1_select_after_store_precise (env : Nat → VNE) (m v : VNE)
    (ci cj : Nat) (hne : ci ≠ cj) :
    VNForMapSelect env (.mapStore m (.cns ci) v) (.cns ci) = v ∧
    ((VNForMapSelectWork env DEFAULT_MAP_SELECT_BUDGET
        (DEFAULT_MAP_SELECT_BUDGET - 1) [] [m] (.cns cj) false).2 <
        DEFAULT_MAP_SELECT_BUDGET - 1 →
      VNForMapSelect env (.mapStore m (.cns ci) v) (.cns cj) =
        VNForMapSelect env m (.cns cj)) := by
  constructor
  · have hstep : stepOf [] (.mapStore m (.cns ci) v) (.cns ci) false =
        .ret v := by
      simp [stepOf]
    show (VNForMapSelectWork env (100 + 1) (99 + 1) []
        [.mapStore m (.cns ci) v] (.cns ci) false).1.headD
      (.mapSelect (.mapStore m (.cns ci) v) (.cns ci)) = v
    simp only [VNForMapSelectWork, hstep, List.headD]
  · intro hm
    have hstep : stepOf [] (.mapStore m (.cns ci) v) (.cns cj) false =
        .descend m := by
      simp [stepOf, VNE.isConst, hne]
    have hm0 : (VNForMapSelectWork env 100 99 [] [m] (.cns cj) false).2 <
        99 := hm
    have hmono : VNForMapSelectWork env 101 100 [] [m] (.cns cj) false =
        VNForMapSelectWork env 100 99 [] [m] (.cns cj) false :=
      selectWork_mono env 100 101 99 100 [] [m] (.cns cj) false
        (by omega) (by omega) (by omega) hm0
    have hlen : (VNForMapSelectWork env 100 99 [] [m]
        (.cns cj) false).1.length = 1 :=
      selectWork_length env 100 99 [] [m] (.cns cj) false
    have hred : ∀ f b, VNForMapSelectWork env (f + 1) (b + 1) []
        [.mapStore m (.cns ci) v] (.cns cj) false =
        ((VNForMapSelectWork env f b [] [m] (.cns cj) false).1,
          (VNForMapSelectWork env f b [] [m] (.cns cj) false).2 + 1) := by
      intro f b
      simp only [VNForMapSelectWork, hstep]
    have hL : VNForMapSelectWork env 101 100 []
        [.mapStore m (.cns ci) v] (.cns cj) false =
        ((VNForMapSelectWork env 100 99 [] [m] (.cns cj) false).1,
          (VNForMapSelectWork env 100 99 [] [m] (.cns cj) false).2 + 1) :=
      hred 100 99
    show (VNForMapSelectWork env 101 100 [] [.mapStore m (.cns ci) v]
        (.cns cj) false).1.headD
        (.mapSelect (.mapStore m (.cns ci) v) (.cns cj)) =
      (VNForMapSelectWork env 101 100 [] [m] (.cns cj) false).1.headD
        (.mapSelect m (.cns cj))
    rw [hL, hmono]
    exact headD_congr (by rw [hlen]; omega) _ _

theorem C1_select_after_store_precise_witness :
    (1 : Nat) ≠ 2 ∧
    (VNForMapSelectWork (fun _ => .opq 0) DEFAULT_MAP_SELECT_BUDGET
      (DEFAULT_MAP_SELECT_BUDGET - 1) [] [.opq 0] (.cns 2) false).2 <
      DEFAULT_MAP_SELECT_BUDGET - 1 ∧
    VNForMapSelect (fun _ => .opq 0) (.mapStore (.opq 0) (.cns 1) (.cns 5))
      (.cns 1) = .cns 5 ∧
    VNForMapSelect (fun _ => .opq 0) (.mapStore (.opq 0) (.cns 1) (.cns 5))
      (.cns 2) = VNForMapSelect (fun _ => .opq 0) (.opq 0) (.cns 2) :=
  ⟨by decide, by decide,
    (C1_select_after_store_precise (fun _ => .opq 0) (.opq 0) (.cns 5) 1 2
      (by decide)).1,
    (C1_select_after_store_precise (fun _ => .opq 0) (.opq 0) (.cns 5) 1 2
      (by decide)).2 (by decide)⟩

set_option maxRecDepth 8000 in
/-- C1 as originally stated is false at the budget boundary: with `m` a chain
of 100 stores at pairwise distinct constant indices (none equal to the select
index 0), `select(MapStore(m, 101, 7), 0)` runs out of budget one store
earlier than `select(m, 0)`, so the two materialized `MapSelect` terms
differ. -/
theorem C1_select_after_store_precise_counterexample :
    VNForMapSelect (fun _ => .opq 0)
        (.mapStore (storeChain 100) (.cns 101) (.cns 7)) (.cns 0) ≠
      VNForMapSelect (fun _ => .opq 0) (storeChain 100) (.cns 0) := by
  decide

theorem select_phi_top (env : Nat → VNE) (args : List Nat) (i : VNE) :
    VNForMapSelect env (.phiDef args) i =
      phiCombine (.phiDef args) i false
        (VNForMapSelectWork env DEFAULT_MAP_SELECT_BUDGET
          (DEFAULT_MAP_SELECT_BUDGET - 1) [(.phiDef args, i)] (args.map env) i
          false).1 := by
  have hstep : stepOf [] (.phiDef args) i false = .phiArgs args := by
    simp [stepOf]
  have hred : ∀ f b, (VNForMapSelectWork env (f + 1) (b + 1) []
      [.phiDef args] i false).1 =
      phiCombine (.phiDef args) i false
        (VNForMapSelectWork env f b [(.phiDef args, i)] (args.map env) i
          false).1 ::
      (VNForMapSelectWork env f
        (b - (VNForMapSelectWork env f b [(.phiDef args, i)] (args.map env) i
          false).2) [] [] i false).1 := by
    intro f b
    simp only [VNForMapSelectWork, hstep]
  have hL : (VNForMapSelectWork env 101 100 [] [.phiDef args] i false).1 =
      phiCombine (.phiDef args) i false
        (VNForMapSelectWork env 100 99 [(.phiDef args, i)] (args.map env) i
          false).1 ::
      (VNForMapSelectWork env 100
        (99 - (VNForMapSelectWork env 100 99 [(.phiDef args, i)]
          (args.map env) i false).2) [] [] i false).1 :=
    hred 100 99
  show (VNForMapSelectWork env 101 100 [] [.phiDef args] i false).1.headD
      (.mapSelect (.phiDef args) i) = _
  rw [hL]
  rfl

/-- C2: selecting at index `i` from a PHI definition reduces by selecting
from each PHI argument (resolved through the SSA environment, with the PHI
itself pushed on the recursion stack): if some argument selection is
non-recursive and every non-recursive argument selection yields the same VN
`w`, the selection is `w`; if two non-recursive argument selections
disagree, or every argument selection reduces to `RecursiveVN`, a fresh
`MapSelect` over the PHI is materialized instead. -/
theorem C2_phi_reduction (env : Nat → VNE) (args : List Nat) (i w : VNE) :
    ((w ≠ .recVN ∧
      w ∈ (VNForMapSelectWork env DEFAULT_MAP_SELECT_BUDGET
        (DEFAULT_MAP_SELECT_BUDGET - 1) [(.phiDef args, i)] (args.map env) i
        false).1 ∧
      ∀ r ∈ (VNForMapSelectWork env DEFAULT_MAP_SELECT_BUDGET
        (DEFAULT_MAP_SELECT_BUDGET - 1) [(.phiDef args, i)] (args.map env) i
        false).1, r ≠ .recVN → r = w) →
      VNForMapSelect env (.phiDef args) i = w) ∧
    ((∃ r1, r1 ∈ (VNForMapSelectWork env DEFAULT_MAP_SELECT_BUDGET
        (DEFAULT_MAP_SELECT_BUDGET - 1) [(.phiDef args, i)] (args.map env) i
        false).1 ∧
      ∃ r2, r2 ∈ (VNForMapSelectWork env DEFAULT_MAP_SELECT_BUDGET
        (DEFAULT_MAP_SELECT_BUDGET - 1) [(.phiDef args, i)] (args.map env) i
        false).1 ∧ r1 ≠ .recVN ∧ r2 ≠ .recVN ∧ r1 ≠ r2) →
      VNForMapSelect env (.phiDef args) i = .mapSelect (.phiDef args) i) ∧
    ((∀ r ∈ (VNForMapSelectWork env DEFAULT_MAP_SELECT_BUDGET
        (DEFAULT_MAP_SELECT_BUDGET - 1) [(.phiDef args, i)] (args.map env) i
        false).1, r = .recVN) →
      VNForMapSelect env (.phiDef args) i = .mapSelect (.phiDef args) i) := by
  refine ⟨?_, ?_, ?_⟩
  · rintro ⟨hwne, hwin, hagree⟩
    rw [select_phi_top]
    exact phiCombine_eq_of_agree hwne hwin hagree
  · rintro ⟨r1, h1, r2, h2, hn1, hn2, hne⟩
    rw [select_phi_top]
    exact phiCombine_giveUp_of_disagree h1 h2 hn1 hn2 hne
  · intro hall
    rw [select_phi_top]
    exact phiCombine_giveUp_of_all_recursive hall

theorem C2_phi_reduction_witness :
    VNForMapSelect
        (fun n => if n = 0 then .mapStore (.opq 7) (.cns 5) (.cns 42)
          else .phiDef [0, 1]) (.phiDef [0, 1]) (.cns 5) = .cns 42 ∧
    VNForMapSelect
        (fun n => if n = 2 then .mapStore (.opq 8) (.cns 5) (.cns 1)
          else .mapStore (.opq 9) (.cns 5) (.cns 2)) (.phiDef [2, 3])
        (.cns 5) = .mapSelect (.phiDef [2, 3]) (.cns 5) ∧
    VNForMapSelect (fun _ => .phiDef [4]) (.phiDef [4]) (.cns 5) =
      .mapSelect (.phiDef [4]) (.cns 5) :=
  ⟨(C2_phi_reduction
      (fun n => if n = 0 then .mapStore (.opq 7) (.cns 5) (.cns 42)
        else .phiDef [0, 1]) [0, 1] (.cns 5) (.cns 42)).1 (by decide),
    (C2_phi_reduction
      (fun n => if n = 2 then .mapStore (.opq 8) (.cns 5) (.cns 1)
        else .mapStore (.opq 9) (.cns 5) (.cns 2)) [2, 3] (.cns 5)
      (.cns 0)).2.1 ⟨.cns 1, by decide, .cns 2, by decide, by decide,
        by decide, by decide⟩,
    (C2_phi_reduction (fun _ => .phiDef [4]) [4] (.cns 5) (.cns 0)).2.2
      (by decide)⟩

/-- C3 (amended): physical selectors `(o1,s1)` and `(o2,s2)` do not alias
exactly when `o1+s1 ≤ o2 ∨ o2+s2 ≤ o1`; selecting through a physical store
whose selector does not alias the read skips the store and equals the
selection from the underlying map, provided the traversal of the underlying
map finishes strictly within the remaining select budget (as originally
stated, without the budget proviso, the skip equation fails at the budget
boundary; see the counterexample); a read entirely contained in the store
returns the stored value, bit-cast to the requested size when the sizes
differ; and a partially overlapping read materializes a fresh
`MapPhysicalSelect`. -/
theorem C3_physical_select (env : Nat → VNE) (m v : VNE) (o1 s1 o2 s2 : Nat)
    (hs2 : s2 < 2 ^ 32) :
    (physNoAlias o1 s1 o2 s2 = true ↔ (o1 + s1 ≤ o2 ∨ o2 + s2 ≤ o1)) ∧
    (physNoAlias o1 s1 o2 s2 = true →
      (VNForMapSelectWork env DEFAULT_MAP_SELECT_BUDGET
        (DEFAULT_MAP_SELECT_BUDGET - 1) [] [m]
        (.cns (EncodePhysicalSelector o2 s2)) true).2 <
        DEFAULT_MAP_SELECT_BUDGET - 1 →
      VNForMapPhysicalSelect env (.mapPhysStore m o1 s1 v) o2 s2 =
        VNForMapPhysicalSelect env m o2 s2) ∧
    (o1 ≤ o2 → o2 + s2 ≤ o1 + s1 → 0 < s2 →
      VNForMapPhysicalSelect env (.mapPhysStore m o1 s1 v) o2 s2 =
        if s2 = s1 then v else .bitCast v s2) ∧
    (physNoAlias o1 s1 o2 s2 = false → ¬(o1 ≤ o2 ∧ o2 + s2 ≤ o1 + s1) →
      VNForMapPhysicalSelect env (.mapPhysStore m o1 s1 v) o2 s2 =
        .mapPhysSelect (.mapPhysStore m o1 s1 v) o2 s2) := by
  have hdec : decodeSelIdx (.cns (EncodePhysicalSelector o2 s2)) =
      some (o2, s2) := by
    simp [decodeSelIdx, decode_encode hs2]
  refine ⟨?_, ?_, ?_, ?_⟩
  · simp [physNoAlias]
  · intro hna hm
    have hstep : stepOf [] (.mapPhysStore m o1 s1 v)
        (.cns (EncodePhysicalSelector o2 s2)) true = .descend m := by
      simp only [stepOf, hdec]
      rw [if_pos hna]
    have hm0 : (VNForMapSelectWork env 100 99 [] [m]
        (.cns (EncodePhysicalSelector o2 s2)) true).2 < 99 := hm
    have hmono : VNForMapSelectWork env 101 100 [] [m]
        (.cns (EncodePhysicalSelector o2 s2)) true =
        VNForMapSelectWork env 100 99 [] [m]
          (.cns (EncodePhysicalSelector o2 s2)) true :=
      selectWork_mono env 100 101 99 100 [] [m]
        (.cns (EncodePhysicalSelector o2 s2)) true (by omega) (by omega)
        (by omega) hm0
    have hlen : (VNForMapSelectWork env 100 99 [] [m]
        (.cns (EncodePhysicalSelector o2 s2)) true).1.length = 1 :=
      selectWork_length env 100 99 [] [m]
        (.cns (EncodePhysicalSelector o2 s2)) true
    have hred : ∀ f b, VNForMapSelectWork env (f + 1) (b + 1) []
        [.mapPhysStore m o1 s1 v] (.cns (EncodePhysicalSelector o2 s2)) true =
        ((VNForMapSelectWork env f b [] [m]
            (.cns (EncodePhysicalSelector o2 s2)) true).1,
          (VNForMapSelectWork env f b [] [m]
            (.cns (EncodePhysicalSelector o2 s2)) true).2 + 1) := by
      intro f b
      simp only [VNForMapSelectWork, hstep]
    have hL : VNForMapSelectWork env 101 100 [] [.mapPhysStore m o1 s1 v]
        (.cns (EncodePhysicalSelector o2 s2)) true =
        ((VNForMapSelectWork env 100 99 [] [m]
            (.cns (EncodePhysicalSelector o2 s2)) true).1,
          (VNForMapSelectWork env 100 99 [] [m]
            (.cns (EncodePhysicalSelector o2 s2)) true).2 + 1) :=
      hred 100 99
    show (VNForMapSelectWork env 101 100 [] [.mapPhysStore m o1 s1 v]
        (.cns (EncodePhysicalSelector o2 s2)) true).1.headD
        (.mapPhysSelect (.mapPhysStore m o1 s1 v) o2 s2) =
      (VNForMapSelectWork env 101 100 [] [m]
        (.cns (EncodePhysicalSelector o2 s2)) true).1.headD
        (.mapPhysSelect m o2 s2)
    rw [hL, hmono]
    exact headD_congr (by rw [hlen]; omega) _ _
  · intro ho12 hcont hpos
    have hnaf : physNoAlias o1 s1 o2 s2 = false := by
      simp only [physNoAlias, Bool.or_eq_false_iff, decide_eq_false_iff_not]
      omega
    have hstep : stepOf [] (.mapPhysStore m o1 s1 v)
        (.cns (EncodePhysicalSelector o2 s2)) true =
        .ret (if s2 = s1 then v else .bitCast v s2) := by
      simp only [stepOf, hdec]
      rw [if_neg (by simp [hnaf]), if_pos ⟨ho12, hcont⟩]
    show (VNForMapSelectWork env (100 + 1) (99 + 1) []
        [.mapPhysStore m o1 s1 v] (.cns (EncodePhysicalSelector o2 s2))
        true).1.headD (.mapPhysSelect (.mapPhysStore m o1 s1 v) o2 s2) =
      if s2 = s1 then v else .bitCast v s2
    simp only [VNForMapSelectWork, hstep, List.headD]
  · intro hnaf hncont
    have hstep : stepOf [] (.mapPhysStore m o1 s1 v)
        (.cns (EncodePhysicalSelector o2 s2)) true =
        .ret (.mapPhysSelect (.mapPhysStore m o1 s1 v) o2 s2) := by
      simp only [stepOf, hdec]
      rw [if_neg (by simp [hnaf]), if_neg hncont]
      simp [giveUpTerm, hdec]
    show (VNForMapSelectWork env (100 + 1) (99 + 1) []
        [.mapPhysStore m o1 s1 v] (.cns (EncodePhysicalSelector o2 s2))
        true).1.headD (.mapPhysSelect (.mapPhysStore m o1 s1 v) o2 s2) =
      .mapPhysSelect (.mapPhysStore m o1 s1 v) o2 s2
    simp only [VNForMapSelectWork, hstep, List.headD]

theorem C3_physical_select_witness :
    ((4 : Nat) < 2 ^ 32) ∧
    (physNoAlias 8 4 0 4 = true ↔ (8 + 4 ≤ 0 ∨ 0 + 4 ≤ 8)) ∧
    VNForMapPhysicalSelect (fun _ => .opq 0)
        (.mapPhysStore (.opq 1) 8 4 (.cns 9)) 0 4 =
      VNForMapPhysicalSelect (fun _ => .opq 0) (.opq 1) 0 4 ∧
    VNForMapPhysicalSelect (fun _ => .opq 0)
        (.mapPhysStore (.opq 1) 0 8 (.cns 9)) 0 4 =
      (if (4 : Nat) = 8 then (.cns 9 : VNE) else .bitCast (.cns 9) 4) ∧
    VNForMapPhysicalSelect (fun _ => .opq 0)
        (.mapPhysStore (.opq 1) 0 4 (.cns 9)) 2 4 =
      .mapPhysSelect (.mapPhysStore (.opq 1) 0 4 (.cns 9)) 2 4 :=
  ⟨by decide,
    (C3_physical_select (fun _ => .opq 0) (.opq 1) (.cns 9) 8 4 0 4
      (by decide)).1,
    (C3_physical_select (fun _ => .opq 0) (.opq 1) (.cns 9) 8 4 0 4
      (by decide)).2.1 (by decide) (by decide),
    (C3_physical_select (fun _ => .opq 0) (.opq 1) (.cns 9) 0 8 0 4
      (by decide)).2.2.1 (by decide) (by decide) (by decide),
    (C3_physical_select (fun _ => .opq 0) (.opq 1) (.cns 9) 0 4 2 4
      (by decide)).2.2.2 (by decide) (by decide)⟩

set_option maxRecDepth 8000 in
/-- C3 as originally stated is false at the budget boundary: with `m` a
chain of 100 physical stores at pairwise disjoint selectors (all disjoint
from the read `(0,4)`), selecting through one more disjoint store runs out
of budget one store earlier, so the two materialized `MapPhysicalSelect`
terms differ. -/
theorem C3_physical_select_counterexample :
    VNForMapPhysicalSelect (fun _ => .opq 0)
        (.mapPhysStore (physStoreChain 100) 404 4 (.cns 7)) 0 4 ≠
      VNForMapPhysicalSelect (fun _ => .opq 0) (physStoreChain 100) 0 4 := by
  decide

set_option maxRecDepth 8000 in
/-- C4: the select worker never consumes more budget steps than it is given
(so a top-level call consumes at most the configured budget, default 100),
and on scenario S4 — a chain of 300 stores at pairwise distinct constant
indices, selected at an index not among them — the top-level selection
terminates, consumes exactly the default budget of 100 steps, and returns a
conservative materialized `MapSelect` term. -/
theorem C4_select_budget_ceiling :
    (∀ (env : Nat → VNE) (f b : Nat) (stack : List (VNE × VNE))
      (maps : List VNE) (i : VNE) (p : Bool),
      (VNForMapSelectWork env f b stack maps i p).2 ≤ b) ∧
    DEFAULT_MAP_SELECT_BUDGET = 100 ∧
    VNE.isMapSelectTerm
      (VNForMapSelect (fun _ => .opq 0) (storeChain 300) (.cns 0)) = true ∧
    (VNForMapSelectWork (fun _ => .opq 0) (DEFAULT_MAP_SELECT_BUDGET + 1)
      DEFAULT_MAP_SELECT_BUDGET [] [storeChain 300] (.cns 0) false).2 =
      DEFAULT_MAP_SELECT_BUDGET :=
  ⟨fun env f b stack maps i p => selectWork_steps_le env f b stack maps i p,
    rfl, by decide, by decide⟩
